import Mathlib

/-!
# Verification of the stract crawl frontier database (`core/src/crawler/crawl_db.rs`)

Shallow embedding of the crawl frontier database. The three rocksdb stores
(`DomainStateDb`, `UrlStateDb`, `RedirectDb`) are modelled as association
lists with insert-or-replace `put` semantics; `f64` weights are modelled as
`ℤ` (the write path only ever adds `1.0` to a weight, takes maxima and
compares; every weight that arises is a small integer, on which `f64`
arithmetic is exact, and no NaN is ever produced); randomness (`rand::thread_rng`) is modelled by oracle
parameters: for `weighted_sample` an oracle `pr : ℕ → ℤ` standing for the
value `-ln(u + ε)` drawn for the i-th item (the division by `w + 1.0` of
the source is kept explicit), and for `prepare_jobs` an oracle `pick` whose
value is reduced modulo `max_shard_id + 1`, matching the contract of
`gen_range(0..=max_shard_id)`.

`Domain` and `Url` (defined in the crawler module outside the file under
review) are modelled from the spec as abstract types `D`, `U` with decidable
equality, together with a canonicalization function `domainOf : U → D`
standing for `Domain::from(&Url)`; `UrlString` keys coincide with the
canonical url, so shard maps are keyed by `U` directly.

A Rust `panic!` (from `.unwrap()`) is modelled by `Option`: `none` is a
panic, `some` a normal return. Write order (claim about shard vs domain
state write order) is modelled by a trace of `WriteEvent`s that
`insert_urls` emits in exactly the order of the source's `put` calls.
-/

set_option maxHeartbeats 1000000

/-! ## Association-list KV stores -/

/-- Point lookup in an association list; models `get` on a KV store. -/
def lookupKV {K : Type _} {V : Type _} [DecidableEq K] : List (K × V) → K → Option V
  | [], _ => none
  | (k, v) :: rest, key => if k = key then some v else lookupKV rest key

/-- Insert-or-replace in an association list; models `put` on a KV store. -/
def insertKV {K : Type _} {V : Type _} [DecidableEq K] : List (K × V) → K → V → List (K × V)
  | [], key, val => [(key, val)]
  | (k, v) :: rest, key, val =>
      if k = key then (key, val) :: rest else (k, v) :: insertKV rest key val

/-- The store has no duplicate keys (true of every rocksdb/BTreeMap image). -/
def NodupKeys {K : Type _} {V : Type _} (m : List (K × V)) : Prop :=
  (m.map Prod.fst).Nodup

/-! ## Data model (`UrlStatus`, `DomainStatus`, `UrlState`, `DomainState`) -/

inductive UrlStatus : Type
  | pending
  | crawling
  | failed (status_code : Option ℕ)
  | done
deriving DecidableEq

inductive DomainStatus : Type
  | pending
  | crawlInProgress
deriving DecidableEq

structure UrlState : Type where
  weight : ℤ
  status : UrlStatus
deriving DecidableEq

structure DomainState : Type where
  weight : ℤ
  status : DomainStatus
  max_shard_id : ℕ
deriving DecidableEq

def URLS_PER_SHARD : ℕ := 5000

/-! ## Weighted reservoir sampler (`weighted_sample`)

The `BinaryHeap<SampledItem<T>>` of the source is modelled as a list;
`peek_mut` addresses the first element of maximal priority, and the
replacement `max.item = item; max.priority = priority` is `replaceTop`.
The drawn priority for the i-th offered item is `pr i / (w + 1)` where
`pr i` stands for the random quantity `-ln(u + ε)` of the source. -/

structure SampledItem (T : Type _) : Type _ where
  item : T
  priority : ℤ
deriving DecidableEq

/-- Priority of the heap's top (its maximal priority), `none` when empty. -/
def heapTop {T : Type _} : List (SampledItem T) → Option ℤ
  | [] => none
  | x :: xs =>
      some (match heapTop xs with
        | none => x.priority
        | some m => max x.priority m)

/-- Replace the first element of maximal priority by `x` (models writing
through `peek_mut`). -/
def replaceTop {T : Type _} (x : SampledItem T) : List (SampledItem T) → List (SampledItem T)
  | [] => []
  | y :: ys =>
      if ys.all (fun z => decide (z.priority ≤ y.priority)) then x :: ys
      else y :: replaceTop x ys

/-- One iteration of the sampling loop of `weighted_sample`. -/
def wsStep {T : Type _} (num_items : ℕ) (heap : List (SampledItem T))
    (x : SampledItem T) : List (SampledItem T) :=
  if heap.length < num_items then x :: heap
  else
    match heapTop heap with
    | none => heap
    | some m => if x.priority < m then replaceTop x heap else heap

/-- The sampling loop, `i` the index of the next offered item. -/
def wsGo {T : Type _} (pr : ℕ → ℤ) (num_items : ℕ) :
    ℕ → List (T × ℤ) → List (SampledItem T) → List (SampledItem T)
  | _, [], heap => heap
  | i, (item, w) :: rest, heap =>
      wsGo pr num_items (i + 1) rest (wsStep num_items heap ⟨item, pr i / (w + 1)⟩)

/-- `weighted_sample` (crawl_db.rs, lines 74-94). -/
def weighted_sample {T : Type _} (pr : ℕ → ℤ) (items : List (T × ℤ))
    (num_items : ℕ) : List T :=
  (wsGo pr num_items 0 items []).map SampledItem.item

/-! ## Crawl db state and collaborator types -/

/-- `UrlResponse`: only `Redirected` is interpreted by the frontier
(modelled from the spec: the remaining variants are ignored here and are
collapsed into one constructor). -/
inductive UrlResponse (U : Type _) : Type _
  | redirected (url : U) (new_url : U)
  | other
deriving DecidableEq

structure JobResponse (D : Type _) (U : Type _) : Type _ where
  domain : D
  discovered_urls : List U
  url_responses : List (UrlResponse U)
deriving DecidableEq

structure Job (D : Type _) (U : Type _) : Type _ where
  domain : D
  fetch_sitemap : Bool
  urls : List U
deriving DecidableEq

structure UrlToInsert (U : Type _) : Type _ where
  url : U
  different_domain : Bool
deriving DecidableEq

/-- A `put` on the `DomainStateDb` or `UrlStateDb` as observed on the write
path of `insert_urls` (redirect writes are not part of the claims' order). -/
inductive WriteEvent (D : Type _) : Type _
  | domainWrite (domain : D)
  | shardWrite (domain : D) (shard_id : ℕ)
deriving DecidableEq

/-- The composed state of `CrawlDb`: the three stores. A `UrlStateDb` key
`DomainShard { domain, shard_id }` is the pair `(domain, shard_id)`. -/
structure CrawlDb (D : Type _) (U : Type _) : Type _ where
  domain_state : List (D × DomainState)
  urls : List ((D × ℕ) × List (U × UrlState))
  redirects : List (U × U)
deriving DecidableEq

/-- The state right after `CrawlDb::open` on a fresh path. -/
def emptyCrawlDb (D U : Type _) : CrawlDb D U := ⟨[], [], []⟩

/-! ## `insert_seed_urls` (lines 334-366) -/

def insertSeedUrl {D U : Type _} [DecidableEq D] [DecidableEq U] (domainOf : U → D)
    (db : CrawlDb D U) (url : U) : CrawlDb D U :=
  let domain := domainOf url
  let db1 : CrawlDb D U :=
    { db with domain_state := insertKV db.domain_state domain ⟨0, .pending, 0⟩ }
  let urls0 := (lookupKV db1.urls (domain, 0)).getD []
  let urls1 := insertKV urls0 url ⟨0, .pending⟩
  { db1 with urls := insertKV db1.urls (domain, 0) urls1 }

def insert_seed_urls {D U : Type _} [DecidableEq D] [DecidableEq U] (domainOf : U → D)
    (db : CrawlDb D U) (urls : List U) : CrawlDb D U :=
  urls.foldl (insertSeedUrl domainOf) db

/-! ## `insert_urls` (lines 368-445) -/

/-- Pass 1, one discovered url: `domains.entry(domain).or_default().push(...)`. -/
def pushUrl {D U : Type _} [DecidableEq D] (domainOf : U → D) (srcDomain : D)
    (acc : List (D × List (UrlToInsert U))) (url : U) : List (D × List (UrlToInsert U)) :=
  let domain := domainOf url
  let different_domain := decide (srcDomain ≠ domain)
  insertKV acc domain ((lookupKV acc domain).getD [] ++ [⟨url, different_domain⟩])

/-- Pass 1 grouping of discovered urls by target domain. -/
def groupDiscovered {D U : Type _} [DecidableEq D] (domainOf : U → D)
    (responses : List (JobResponse D U)) : List (D × List (UrlToInsert U)) :=
  responses.foldl (fun acc res => res.discovered_urls.foldl (pushUrl domainOf res.domain) acc) []

/-- Pass 1 redirect writes: `self.redirects.put(url, new_url)` for every
`Redirected` record. -/
def applyRedirects {D U : Type _} [DecidableEq U] (redirects : List (U × U))
    (responses : List (JobResponse D U)) : List (U × U) :=
  responses.foldl
    (fun acc res =>
      res.url_responses.foldl
        (fun acc r =>
          match r with
          | .redirected url new_url => insertKV acc url new_url
          | .other => acc)
        acc)
    redirects

/-- The state a discovered url gets in the shard map (lines 419-429): the
existing state or `{weight: 0, Pending}`, with the weight bumped by `1.0`
when the link was cross-domain. -/
def newUrlState {U : Type _} [DecidableEq U] (us : List (U × UrlState)) (u : UrlToInsert U) :
    UrlState :=
  let url_state0 := (lookupKV us u.url).getD ⟨0, UrlStatus.pending⟩
  if u.different_domain then { url_state0 with weight := url_state0.weight + 1 }
  else url_state0

/-- `if url_state.weight > domain_state.weight { domain_state.weight = url_state.weight }`
(lines 431-433). -/
def bumpWeight (ds : DomainState) (w : ℤ) : DomainState :=
  if ds.weight < w then { ds with weight := w } else ds

/-- The per-domain url loop of pass 2 (lines 418-436). -/
def insertUrlsLoop {U : Type _} [DecidableEq U] :
    List (U × UrlState) → DomainState → List (UrlToInsert U) →
    List (U × UrlState) × DomainState
  | us, ds, [] => (us, ds)
  | us, ds, u :: rest =>
      insertUrlsLoop (insertKV us u.url (newUrlState us u))
        (bumpWeight ds (newUrlState us u).weight) rest

/-- The tail of pass 2 for one target domain, once the shard to write and
its current contents are known (lines 418-441): run the url loop, then
`put` the domain state and then the shard (in that order, as in the
source). -/
def insertDomainUrlsFinish {D U : Type _} [DecidableEq D] [DecidableEq U] (db : CrawlDb D U)
    (domain : D) (urls : List (UrlToInsert U)) (domain_state : DomainState)
    (url_states : List (U × UrlState)) (shard_id : ℕ) (tr : List (WriteEvent D)) :
    CrawlDb D U × List (WriteEvent D) :=
  let p := insertUrlsLoop url_states domain_state urls
  let db1 : CrawlDb D U := { db with domain_state := insertKV db.domain_state domain p.2 }
  let db2 : CrawlDb D U := { db1 with urls := insertKV db1.urls (domain, shard_id) p.1 }
  (db2, tr ++ [.domainWrite domain, .shardWrite domain shard_id])

/-- Pass 2 for one target domain, after the domain state has been looked up
or created (lines 404-441): load the shard at `max_shard_id`, advance the
shard on overflow (`max_shard_id += 1`, empty shard), then finish. -/
def insertDomainUrlsCore {D U : Type _} [DecidableEq D] [DecidableEq U] (db : CrawlDb D U)
    (domain : D) (urls : List (UrlToInsert U)) (domain_state : DomainState)
    (tr : List (WriteEvent D)) : CrawlDb D U × List (WriteEvent D) :=
  let s0 := domain_state.max_shard_id
  let url_states0 := (lookupKV db.urls (domain, s0)).getD []
  if URLS_PER_SHARD ≤ url_states0.length then
    insertDomainUrlsFinish db domain urls { domain_state with max_shard_id := s0 + 1 } []
      (s0 + 1) tr
  else
    insertDomainUrlsFinish db domain urls domain_state url_states0 s0 tr

/-- Pass 2 for one target domain (lines 389-441); the `None` branch of the
domain-state lookup performs an extra `put` of the freshly created state
(line 398). -/
def insertDomainUrls {D U : Type _} [DecidableEq D] [DecidableEq U] (db : CrawlDb D U)
    (domain : D) (urls : List (UrlToInsert U)) : CrawlDb D U × List (WriteEvent D) :=
  match lookupKV db.domain_state domain with
  | some st => insertDomainUrlsCore db domain urls st []
  | none =>
      let st : DomainState := ⟨0, .pending, 0⟩
      let db1 : CrawlDb D U := { db with domain_state := insertKV db.domain_state domain st }
      insertDomainUrlsCore db1 domain urls st [.domainWrite domain]

/-- The pass-2 fold of `insert_urls` over the grouped domains, threading the
state and the write trace. -/
def insertGroupsFold {D U : Type _} [DecidableEq D] [DecidableEq U] :
    List (D × List (UrlToInsert U)) → CrawlDb D U × List (WriteEvent D) →
    CrawlDb D U × List (WriteEvent D)
  | [], acc => acc
  | g :: rest, acc =>
      insertGroupsFold rest
        ((insertDomainUrls acc.1 g.1 g.2).1, acc.2 ++ (insertDomainUrls acc.1 g.1 g.2).2)

/-- `insert_urls`, returning the new state together with the trace of domain
and shard `put`s in source order. -/
def insert_urls {D U : Type _} [DecidableEq D] [DecidableEq U] (domainOf : U → D)
    (db : CrawlDb D U) (responses : List (JobResponse D U)) :
    CrawlDb D U × List (WriteEvent D) :=
  insertGroupsFold (groupDiscovered domainOf responses)
    ({ db with redirects := applyRedirects db.redirects responses }, [])

/-! ## `set_domain_status` (lines 447-459) -/

def set_domain_status {D U : Type _} [DecidableEq D] (db : CrawlDb D U) (domain : D)
    (status : DomainStatus) : CrawlDb D U :=
  let st := (lookupKV db.domain_state domain).getD ⟨0, status, 0⟩
  { db with domain_state := insertKV db.domain_state domain { st with status := status } }

/-! ## `sample_domains` (lines 461-480) -/

/-- The `iter().filter_map(..)` feeding the sampler: pending domains with
their weights, in store order. -/
def pendingDomains {D U : Type _} (db : CrawlDb D U) : List (D × ℤ) :=
  db.domain_state.filterMap fun p =>
    if p.2.status = DomainStatus.pending then some (p.1, p.2.weight) else none

/-- The status-flip loop of `sample_domains` (lines 473-477); the
`.unwrap()` of the lookup is `none` = panic. -/
def flipCrawlInProgress {D : Type _} [DecidableEq D] :
    List (D × DomainState) → List D → Option (List (D × DomainState))
  | m, [] => some m
  | m, d :: rest =>
      match lookupKV m d with
      | none => none
      | some st => flipCrawlInProgress (insertKV m d { st with status := .crawlInProgress }) rest

def sample_domains {D U : Type _} [DecidableEq D] (pr : ℕ → ℤ) (db : CrawlDb D U)
    (num_jobs : ℕ) : Option (List D × CrawlDb D U) :=
  let sampled := weighted_sample pr (pendingDomains db) num_jobs
  (flipCrawlInProgress db.domain_state sampled).map
    fun m => (sampled, { db with domain_state := m })

/-! ## `prepare_jobs` (lines 482-550) -/

/-- The pending urls of a shard with their weights (lines 495-504). -/
def pendingUrls {U : Type _} (us : List (U × UrlState)) : List (U × ℤ) :=
  us.filterMap fun p =>
    if p.2.status = UrlStatus.pending then some (p.1, p.2.weight) else none

/-- The pending weights of a shard (lines 520-528). -/
def pendingWeights {U : Type _} (us : List (U × UrlState)) : List ℤ :=
  us.filterMap fun p =>
    if p.2.status = UrlStatus.pending then some p.2.weight else none

/-- `iter().max_by(..).unwrap_or(0.0)`: the maximum of a list of weights, 0
when there is none. -/
def maxOrZero : List ℤ → ℤ
  | [] => 0
  | w :: ws => ws.foldl max w

/-- The status-flip loop on sampled urls (lines 511-516); the `.unwrap()`
of the lookup is `none` = panic. -/
def flipCrawling {U : Type _} [DecidableEq U] :
    List (U × UrlState) → List U → Option (List (U × UrlState))
  | us, [] => some us
  | us, u :: rest =>
      match lookupKV us u with
      | none => none
      | some st => flipCrawling (insertKV us u { st with status := .crawling }) rest

/-- `prepare_jobs` body for a single domain (lines 484-547). `pick` is the
random draw behind `gen_range(0..=state.max_shard_id)`. -/
def prepareJob {D U : Type _} [DecidableEq D] [DecidableEq U] (pr : ℕ → ℤ) (pick : ℕ)
    (db : CrawlDb D U) (domain : D) (urls_per_job : ℕ) : Option (Job D U × CrawlDb D U) :=
  match lookupKV db.domain_state domain with
  | none => none
  | some state =>
      let shard_id := pick % (state.max_shard_id + 1)
      let urls0 := (lookupKV db.urls (domain, shard_id)).getD []
      let available_urls := pendingUrls urls0
      let sampled := weighted_sample pr available_urls urls_per_job
      match flipCrawling urls0 sampled with
      | none => none
      | some urls1 =>
          match lookupKV db.domain_state domain with
          | none => none
          | some domain_state =>
              let domain_state1 := { domain_state with weight := maxOrZero (pendingWeights urls1) }
              let db1 : CrawlDb D U :=
                { db with domain_state := insertKV db.domain_state domain domain_state1 }
              let job : Job D U := ⟨domain, false, sampled⟩
              let db2 : CrawlDb D U := { db1 with urls := insertKV db1.urls (domain, shard_id) urls1 }
              some (job, db2)

/-- The loop over domains of `prepare_jobs`; `j` indexes the current domain
so that each domain gets its own random draws `pr j`, `pick j`. -/
def prepareJobsGo {D U : Type _} [DecidableEq D] [DecidableEq U] (pr : ℕ → ℕ → ℤ)
    (pick : ℕ → ℕ) (urls_per_job : ℕ) :
    ℕ → List D → CrawlDb D U → List (Job D U) → Option (List (Job D U) × CrawlDb D U)
  | _, [], db, jobs => some (jobs, db)
  | j, d :: rest, db, jobs =>
      match prepareJob (pr j) (pick j) db d urls_per_job with
      | none => none
      | some r => prepareJobsGo pr pick urls_per_job (j + 1) rest r.2 (jobs ++ [r.1])

def prepare_jobs {D U : Type _} [DecidableEq D] [DecidableEq U] (pr : ℕ → ℕ → ℤ)
    (pick : ℕ → ℕ) (db : CrawlDb D U) (domains : List D) (urls_per_job : ℕ) :
    Option (List (Job D U) × CrawlDb D U) :=
  prepareJobsGo pr pick urls_per_job 0 domains db []

/-! ## Invariants and trace predicates used by the claims -/

/-- Invariant (1) of the spec: every `UrlStateDb` key `(d, s)` satisfies
`s ≤ DomainStateDb[d].max_shard_id`. -/
def ShardInv {D U : Type _} [DecidableEq D] (db : CrawlDb D U) : Prop :=
  ∀ d s shard, lookupKV db.urls (d, s) = some shard →
    ∃ st, lookupKV db.domain_state d = some st ∧ s ≤ st.max_shard_id

/-- Every stored shard map has no duplicate url keys (true of every
`BTreeMap` image). -/
def UrlsWF {D U : Type _} [DecidableEq D] (db : CrawlDb D U) : Prop :=
  ∀ key shard, lookupKV db.urls key = some shard → NodupKeys shard

def isShardWrite {D : Type _} : WriteEvent D → Bool
  | .shardWrite _ _ => true
  | _ => false

def isDomainWrite {D : Type _} : WriteEvent D → Bool
  | .domainWrite _ => true
  | _ => false

/-- Every shard write in the trace is preceded by a domain-state write for
the same domain. -/
def DomainWritePrecedesShard {D : Type _} (tr : List (WriteEvent D)) : Prop :=
  ∀ d s i (h : i < tr.length), tr.get ⟨i, h⟩ = WriteEvent.shardWrite d s →
    WriteEvent.domainWrite d ∈ tr.take i

/-- The order the specification asserts (the refinement target for the
write-order claim): every domain-state write in the trace is preceded by a
shard write for the same domain. -/
def ShardWritePrecedesDomain {D : Type _} (tr : List (WriteEvent D)) : Prop :=
  ∀ d i (h : i < tr.length), tr.get ⟨i, h⟩ = WriteEvent.domainWrite d →
    ∃ s, WriteEvent.shardWrite d s ∈ tr.take i

/-! ## `DomainStateDb` read path with validation (`rkyv::check_archived_root`)

The zero-copy deserialization layer is modelled abstractly: a stored record
either passes validation (`valid v`) or fails it (`corrupt`). `get`
(lines 250-261) calls `.unwrap()` on the validation result, so a corrupt
record is a panic; `iter` (lines 274-288) uses `.ok()?` inside
`filter_map`, so a corrupt record is skipped silently. -/

inductive RawRecord (V : Type _) : Type _
  | valid (v : V)
  | corrupt
deriving DecidableEq

/-- Result of `DomainStateDb::get` as observed by the caller. -/
inductive GetOutcome (V : Type _) : Type _
  | panicked
  | notFound
  | found (v : V)
deriving DecidableEq

abbrev DomainStateDb (D : Type _) : Type _ := List (D × RawRecord DomainState)

def DomainStateDb.get {D : Type _} [DecidableEq D] (store : DomainStateDb D) (domain : D) :
    GetOutcome DomainState :=
  match lookupKV store domain with
  | none => .notFound
  | some (.valid v) => .found v
  | some .corrupt => .panicked

def DomainStateDb.iter {D : Type _} (store : DomainStateDb D) : List (D × DomainState) :=
  store.filterMap fun p =>
    match p.2 with
    | .valid v => some (p.1, v)
    | .corrupt => none

/-! ## Concrete scenario states used in the analysis of shard rollover

Inputs instantiate `D = U = ℕ`; `constDomain` sends every url to domain 0,
`divDomain` sends url `u` to domain `u / 10`. -/

def constDomain : ℕ → ℕ := fun _ => 0

def divDomain : ℕ → ℕ := fun u => u / 10

/-- A small run: a cross-domain link onto url 1 of domain 0, then a seed on
domain 0 (which resets the domain weight to 0), then an intra-domain link
onto url 3 of domain 0. -/
def scenarioSmall : CrawlDb ℕ ℕ :=
  (insert_urls divDomain
    (insert_seed_urls divDomain
      ((insert_urls divDomain (emptyCrawlDb ℕ ℕ) [⟨1, [1], []⟩]).1) [2])
    [⟨0, [3], []⟩]).1

/-- The write trace of a single-url `insert_urls` on a fresh domain. -/
def scenarioTrace : List (WriteEvent ℕ) :=
  (insert_urls divDomain (emptyCrawlDb ℕ ℕ) [⟨1, [7], []⟩]).2

/-! # Lemmas -/

/-! ## Association-list store lemmas -/

theorem lookupKV_insertKV_self {K V : Type _} [DecidableEq K] (m : List (K × V)) (k : K) (v : V) :
    lookupKV (insertKV m k v) k = some v := by
  induction m with
  | nil => simp [insertKV, lookupKV]
  | cons p rest ih =>
      obtain ⟨k1, v1⟩ := p
      by_cases h : k1 = k
      · subst h
        simp [insertKV, lookupKV]
      · simp [insertKV, lookupKV, h, ih]

theorem lookupKV_insertKV_ne {K V : Type _} [DecidableEq K] (m : List (K × V)) (k k' : K) (v : V)
    (h : k' ≠ k) : lookupKV (insertKV m k v) k' = lookupKV m k' := by
  have hk : k ≠ k' := Ne.symm h
  induction m with
  | nil => simp [insertKV, lookupKV, hk]
  | cons p rest ih =>
      obtain ⟨k1, v1⟩ := p
      by_cases h1 : k1 = k
      · subst h1
        simp [insertKV, lookupKV, hk]
      · simp only [insertKV, if_neg h1, lookupKV, ih]

theorem length_insertKV_none {K V : Type _} [DecidableEq K] (m : List (K × V)) (k : K) (v : V)
    (h : lookupKV m k = none) : (insertKV m k v).length = m.length + 1 := by
  induction m with
  | nil => simp [insertKV]
  | cons p rest ih =>
      obtain ⟨k1, v1⟩ := p
      simp only [lookupKV] at h
      by_cases h1 : k1 = k
      · simp [h1] at h
      · simp only [insertKV, if_neg h1, List.length_cons]
        rw [ih (by simpa [h1] using h)]

theorem lookupKV_isSome_insertKV {K V : Type _} [DecidableEq K] (m : List (K × V)) (k k' : K)
    (v : V) (h : (lookupKV m k').isSome) : (lookupKV (insertKV m k v) k').isSome := by
  by_cases hk : k' = k
  · subst hk
    simp [lookupKV_insertKV_self]
  · rwa [lookupKV_insertKV_ne m k k' v hk]

theorem lookupKV_isSome_insertKV_iff {K V : Type _} [DecidableEq K] (m : List (K × V)) (k k' : K)
    (v : V) (hk : (lookupKV m k).isSome) :
    (lookupKV (insertKV m k v) k').isSome ↔ (lookupKV m k').isSome := by
  by_cases h : k' = k
  · subst h
    simp [lookupKV_insertKV_self, hk]
  · rw [lookupKV_insertKV_ne m k k' v h]

theorem lookupKV_eq_none_of_not_mem_keys {K V : Type _} [DecidableEq K] (m : List (K × V))
    (k : K) (h : k ∉ m.map Prod.fst) : lookupKV m k = none := by
  induction m with
  | nil => simp [lookupKV]
  | cons p rest ih =>
      obtain ⟨k1, v1⟩ := p
      simp only [List.map_cons, List.mem_cons] at h
      push_neg at h
      have h1 : ¬ (k1 = k) := fun hh => h.1 hh.symm
      simp only [lookupKV, if_neg h1, ih h.2]

theorem mem_keys_of_lookupKV_isSome {K V : Type _} [DecidableEq K] (m : List (K × V)) (k : K)
    (h : (lookupKV m k).isSome) : k ∈ m.map Prod.fst := by
  by_contra hc
  rw [lookupKV_eq_none_of_not_mem_keys m k hc] at h
  simp at h

theorem mem_keys_insertKV {K V : Type _} [DecidableEq K] (m : List (K × V)) (k k' : K) (v : V)
    (h : k' ∈ (insertKV m k v).map Prod.fst) : k' = k ∨ k' ∈ m.map Prod.fst := by
  induction m with
  | nil => simpa [insertKV] using h
  | cons p rest ih =>
      obtain ⟨k1, v1⟩ := p
      by_cases h1 : k1 = k
      · subst h1
        have he : insertKV ((k1, v1) :: rest) k1 v = (k1, v) :: rest := by simp [insertKV]
        rw [he] at h
        simp only [List.map_cons, List.mem_cons] at h
        simp only [List.map_cons, List.mem_cons]
        tauto
      · have he : insertKV ((k1, v1) :: rest) k v = (k1, v1) :: insertKV rest k v := by
          simp [insertKV, h1]
        rw [he] at h
        simp only [List.map_cons, List.mem_cons] at h
        simp only [List.map_cons, List.mem_cons]
        rcases h with h | h
        · tauto
        · rcases ih h with h2 | h2 <;> tauto

theorem nodupKeys_insertKV {K V : Type _} [DecidableEq K] (m : List (K × V)) (k : K) (v : V)
    (h : NodupKeys m) : NodupKeys (insertKV m k v) := by
  induction m with
  | nil => simp [insertKV, NodupKeys]
  | cons p rest ih =>
      obtain ⟨k1, v1⟩ := p
      simp only [NodupKeys, List.map_cons, List.nodup_cons] at h
      by_cases h1 : k1 = k
      · subst h1
        have he : insertKV ((k1, v1) :: rest) k1 v = (k1, v) :: rest := by simp [insertKV]
        rw [he]
        simp only [NodupKeys, List.map_cons, List.nodup_cons]
        exact ⟨h.1, h.2⟩
      · have hrest := ih h.2
        have he : insertKV ((k1, v1) :: rest) k v = (k1, v1) :: insertKV rest k v := by
          simp [insertKV, h1]
        rw [he]
        simp only [NodupKeys, List.map_cons, List.nodup_cons]
        refine ⟨fun hmem => ?_, hrest⟩
        rcases mem_keys_insertKV rest k k1 v hmem with h2 | h2
        · exact h1 h2
        · exact h.1 h2

theorem nodupKeys_nil {K V : Type _} : NodupKeys ([] : List (K × V)) := by
  simp [NodupKeys]

theorem lookupKV_eq_some_of_mem {K V : Type _} [DecidableEq K] (m : List (K × V)) (k : K) (v : V)
    (hnd : NodupKeys m) (h : (k, v) ∈ m) : lookupKV m k = some v := by
  induction m with
  | nil => simp at h
  | cons p rest ih =>
      obtain ⟨k1, v1⟩ := p
      simp only [NodupKeys, List.map_cons, List.nodup_cons] at hnd
      rcases List.mem_cons.mp h with h | h
      · rw [Prod.mk.injEq] at h
        obtain ⟨hk, hv⟩ := h
        subst hk
        subst hv
        simp [lookupKV]
      · have hk : ¬ (k1 = k) := by
          intro he
          subst he
          exact hnd.1 (List.mem_map.mpr ⟨(k1, v), h, rfl⟩)
        simp only [lookupKV, if_neg hk]
        exact ih hnd.2 h

theorem mem_of_lookupKV_eq_some {K V : Type _} [DecidableEq K] (m : List (K × V)) (k : K) (v : V)
    (h : lookupKV m k = some v) : (k, v) ∈ m := by
  induction m with
  | nil => simp [lookupKV] at h
  | cons p rest ih =>
      obtain ⟨k1, v1⟩ := p
      by_cases h1 : k1 = k
      · subst h1
        have he : lookupKV ((k1, v1) :: rest) k1 = some v1 := by simp [lookupKV]
        rw [he] at h
        injection h with hv
        subst hv
        exact List.mem_cons_self _ _
      · have he : lookupKV ((k1, v1) :: rest) k = lookupKV rest k := by simp [lookupKV, h1]
        rw [he] at h
        exact List.mem_cons_of_mem _ (ih h)

/-! ## Sampler lemmas -/

theorem length_replaceTop {T : Type _} (x : SampledItem T) (h : List (SampledItem T)) :
    (replaceTop x h).length = h.length := by
  induction h with
  | nil => simp [replaceTop]
  | cons y ys ih =>
      by_cases hc : ys.all (fun z => decide (z.priority ≤ y.priority))
      · simp [replaceTop, hc]
      · simp [replaceTop, hc, ih]

theorem length_wsStep {T : Type _} (k : ℕ) (heap : List (SampledItem T)) (x : SampledItem T) :
    (wsStep k heap x).length = if heap.length < k then heap.length + 1 else heap.length := by
  by_cases hc : heap.length < k
  · simp [wsStep, hc]
  · simp only [wsStep, if_neg hc]
    match hh : heapTop heap with
    | none => simp [hh, hc]
    | some m =>
        simp only [hh, if_neg hc]
        by_cases hp : x.priority < m
        · simp [hp, length_replaceTop, hc]
        · simp [hp, hc]

theorem wsGo_length {T : Type _} (pr : ℕ → ℤ) (k : ℕ) (items : List (T × ℤ)) :
    ∀ (i : ℕ) (heap : List (SampledItem T)), heap.length ≤ k →
      (wsGo pr k i items heap).length = min k (heap.length + items.length) := by
  induction items with
  | nil =>
      intro i heap hle
      simp only [wsGo, List.length_nil, Nat.add_zero]
      omega
  | cons p rest ih =>
      intro i heap hle
      obtain ⟨item, w⟩ := p
      simp only [wsGo, List.length_cons]
      rw [ih (i + 1) _ (by rw [length_wsStep]; split <;> omega)]
      rw [length_wsStep]
      split <;> omega

theorem weighted_sample_length {T : Type _} (pr : ℕ → ℤ) (items : List (T × ℤ)) (k : ℕ) :
    (weighted_sample pr items k).length = min k items.length := by
  simp only [weighted_sample, List.length_map]
  simpa using wsGo_length pr k items 0 [] (by simp)

theorem mem_replaceTop {T : Type _} (x y : SampledItem T) (h : List (SampledItem T))
    (hm : y ∈ replaceTop x h) : y = x ∨ y ∈ h := by
  induction h with
  | nil => simp [replaceTop] at hm
  | cons z zs ih =>
      by_cases hc : zs.all (fun q => decide (q.priority ≤ z.priority))
      · simp only [replaceTop, if_pos hc, List.mem_cons] at hm
        rcases hm with hm | hm
        · exact Or.inl hm
        · exact Or.inr (List.mem_cons_of_mem _ hm)
      · simp only [replaceTop, if_neg hc, List.mem_cons] at hm
        rcases hm with hm | hm
        · exact Or.inr (hm ▸ List.mem_cons_self _ _)
        · rcases ih hm with hh | hh
          · exact Or.inl hh
          · exact Or.inr (List.mem_cons_of_mem _ hh)

theorem mem_wsStep {T : Type _} (k : ℕ) (heap : List (SampledItem T)) (x y : SampledItem T)
    (hm : y ∈ wsStep k heap x) : y = x ∨ y ∈ heap := by
  by_cases hc : heap.length < k
  · simp only [wsStep, if_pos hc, List.mem_cons] at hm
    exact hm
  · rcases hh : heapTop heap with _ | m
    · simp only [wsStep, if_neg hc, hh] at hm
      exact Or.inr hm
    · simp only [wsStep, if_neg hc, hh] at hm
      by_cases hp : x.priority < m
      · rw [if_pos hp] at hm
        exact mem_replaceTop x y heap hm
      · rw [if_neg hp] at hm
        exact Or.inr hm

theorem mem_wsGo {T : Type _} (pr : ℕ → ℤ) (k : ℕ) (items : List (T × ℤ)) :
    ∀ (i : ℕ) (heap : List (SampledItem T)) (y : SampledItem T), y ∈ wsGo pr k i items heap →
      y ∈ heap ∨ y.item ∈ items.map Prod.fst := by
  induction items with
  | nil =>
      intro i heap y hm
      simp only [wsGo] at hm
      exact Or.inl hm
  | cons p rest ih =>
      intro i heap y hm
      obtain ⟨item, w⟩ := p
      simp only [wsGo] at hm
      rcases ih (i + 1) _ y hm with hh | hh
      · rcases mem_wsStep k heap ⟨item, pr i / (w + 1)⟩ y hh with he | he
        · right
          simp [he]
        · exact Or.inl he
      · right
        simp only [List.map_cons, List.mem_cons]
        exact Or.inr hh

theorem mem_weighted_sample {T : Type _} (pr : ℕ → ℤ) (items : List (T × ℤ)) (k : ℕ) (d : T)
    (hm : d ∈ weighted_sample pr items k) : ∃ w, (d, w) ∈ items := by
  simp only [weighted_sample, List.mem_map] at hm
  obtain ⟨y, hy, hitem⟩ := hm
  rcases mem_wsGo pr k items 0 [] y hy with hh | hh
  · simp at hh
  · rcases List.mem_map.mp hh with ⟨q, hq, hfst⟩
    exact ⟨q.2, by rwa [← hitem, ← hfst]⟩

/-! ## Claim C3: sampling size -/

/-- C3: for every finite input sequence of (item, weight) pairs with
nonnegative weights and every k, `weighted_sample(items, k)` returns exactly
`min(k, |items|)` items; in particular, if fewer than k items are offered,
all of them are returned. -/
theorem C3_weighted_sample_size {T : Type _} (pr : ℕ → ℤ) (items : List (T × ℤ)) (k : ℕ)
    (_hw : ∀ p ∈ items, 0 ≤ p.2) :
    (weighted_sample pr items k).length = min k items.length :=
  weighted_sample_length pr items k

theorem C3_weighted_sample_size_witness :
    (∀ p ∈ [((0:ℕ), (5:ℤ)), (1, 2)], 0 ≤ p.2) ∧
    (weighted_sample (fun _ => 0) [((0:ℕ), (5:ℤ)), (1, 2)] 5).length =
      min 5 ([((0:ℕ), (5:ℤ)), (1, 2)].length) :=
  ⟨by decide, C3_weighted_sample_size (fun _ => 0) [((0:ℕ), (5:ℤ)), (1, 2)] 5 (by decide)⟩

/-! ## `sample_domains` lemmas -/

theorem flipCrawlInProgress_preserves_crawl {D : Type _} [DecidableEq D] (sampled : List D) :
    ∀ (m m1 : List (D × DomainState)) (d : D) (st : DomainState),
      flipCrawlInProgress m sampled = some m1 →
      lookupKV m d = some st → st.status = DomainStatus.crawlInProgress →
      ∃ st9, lookupKV m1 d = some st9 ∧ st9.status = DomainStatus.crawlInProgress := by
  induction sampled with
  | nil =>
      intro m m1 d st hrun hl hs
      simp only [flipCrawlInProgress] at hrun
      injection hrun with he
      exact ⟨st, he ▸ hl, hs⟩
  | cons e rest ih =>
      intro m m1 d st hrun hl hs
      simp only [flipCrawlInProgress] at hrun
      rcases he : lookupKV m e with _ | ste
      · rw [he] at hrun
        cases hrun
      · rw [he] at hrun
        by_cases hd : d = e
        · subst hd
          exact ih _ m1 d _ hrun (lookupKV_insertKV_self m d _) rfl
        · exact ih _ m1 d st hrun (by rwa [lookupKV_insertKV_ne m e d _ hd]) hs

theorem flipCrawlInProgress_lookup {D : Type _} [DecidableEq D] (sampled : List D) :
    ∀ (m m1 : List (D × DomainState)), flipCrawlInProgress m sampled = some m1 →
      ∀ d ∈ sampled, ∃ st, lookupKV m1 d = some st ∧
        st.status = DomainStatus.crawlInProgress := by
  induction sampled with
  | nil =>
      intro m m1 _ d hd
      simp at hd
  | cons e rest ih =>
      intro m m1 hrun d hd
      simp only [flipCrawlInProgress] at hrun
      rcases he : lookupKV m e with _ | ste
      · rw [he] at hrun
        cases hrun
      · rw [he] at hrun
        rcases List.mem_cons.mp hd with hd1 | hd1
        · subst hd1
          exact flipCrawlInProgress_preserves_crawl rest _ m1 d _ hrun
            (lookupKV_insertKV_self m d _) rfl
        · exact ih _ m1 hrun d hd1

theorem flipCrawlInProgress_nodup {D : Type _} [DecidableEq D] (sampled : List D) :
    ∀ (m m1 : List (D × DomainState)), NodupKeys m →
      flipCrawlInProgress m sampled = some m1 → NodupKeys m1 := by
  induction sampled with
  | nil =>
      intro m m1 hnd hrun
      simp only [flipCrawlInProgress] at hrun
      injection hrun with he
      exact he ▸ hnd
  | cons e rest ih =>
      intro m m1 hnd hrun
      simp only [flipCrawlInProgress] at hrun
      rcases he : lookupKV m e with _ | ste
      · rw [he] at hrun
        cases hrun
      · rw [he] at hrun
        exact ih _ m1 (nodupKeys_insertKV m e _ hnd) hrun

theorem mem_pendingDomains {D U : Type _} (db : CrawlDb D U) (d : D) (w : ℤ)
    (h : (d, w) ∈ pendingDomains db) :
    ∃ st, (d, st) ∈ db.domain_state ∧ st.status = DomainStatus.pending ∧ st.weight = w := by
  simp only [pendingDomains, List.mem_filterMap] at h
  obtain ⟨p, hp, he⟩ := h
  by_cases hs : p.2.status = DomainStatus.pending
  · rw [if_pos hs] at he
    injection he with he
    rw [Prod.mk.injEq] at he
    exact ⟨p.2, by rw [← he.1]; exact hp, hs, he.2⟩
  · rw [if_neg hs] at he
    cases he

/-! ## Claim C1: politeness of `sample_domains` -/

/-- C1: every domain returned by `sample_domains` was stored `Pending` when
enumerated; before returning, `CrawlInProgress` is persisted for each
returned domain; consequently a second `sample_domains` call on the
resulting state (no `set_domain_status(_, Pending)` in between) returns
none of the domains of the first call. -/
theorem C1_sample_domains_politeness {D U : Type _} [DecidableEq D]
    (pr : ℕ → ℤ) (db : CrawlDb D U) (n : ℕ) (sampled : List D) (db1 : CrawlDb D U)
    (hnd : NodupKeys db.domain_state)
    (hrun : sample_domains pr db n = some (sampled, db1)) :
    (∀ d ∈ sampled, ∃ st, lookupKV db.domain_state d = some st ∧
        st.status = DomainStatus.pending)
    ∧ (∀ d ∈ sampled, ∃ st, lookupKV db1.domain_state d = some st ∧
        st.status = DomainStatus.crawlInProgress)
    ∧ (∀ (pr2 : ℕ → ℤ) (n2 : ℕ) (out2 : List D × CrawlDb D U),
        sample_domains pr2 db1 n2 = some out2 → ∀ d ∈ sampled, d ∉ out2.1) := by
  simp only [sample_domains, Option.map_eq_some'] at hrun
  obtain ⟨m, hflip, heq⟩ := hrun
  rw [Prod.mk.injEq] at heq
  obtain ⟨hsampled, hdb1⟩ := heq
  have hpend : ∀ d ∈ sampled, ∃ st, lookupKV db.domain_state d = some st ∧
      st.status = DomainStatus.pending := by
    intro d hd
    rw [← hsampled] at hd
    obtain ⟨w, hw⟩ := mem_weighted_sample pr (pendingDomains db) n d hd
    obtain ⟨st, hmem, hst, _⟩ := mem_pendingDomains db d w hw
    exact ⟨st, lookupKV_eq_some_of_mem db.domain_state d st hnd hmem, hst⟩
  have hm1 : db1.domain_state = m := by rw [← hdb1]
  have hcrawl : ∀ d ∈ sampled, ∃ st, lookupKV db1.domain_state d = some st ∧
      st.status = DomainStatus.crawlInProgress := by
    intro d hd
    rw [hm1]
    exact flipCrawlInProgress_lookup sampled db.domain_state m (hsampled ▸ hflip) d hd
  refine ⟨hpend, hcrawl, ?_⟩
  intro pr2 n2 out2 hrun2 d hd hmem2
  have hnd1 : NodupKeys db1.domain_state := by
    rw [hm1]
    exact flipCrawlInProgress_nodup sampled db.domain_state m hnd (hsampled ▸ hflip)
  simp only [sample_domains, Option.map_eq_some'] at hrun2
  obtain ⟨m2, _, heq2⟩ := hrun2
  have hout : out2.1 = weighted_sample pr2 (pendingDomains db1) n2 := by rw [← heq2]
  rw [hout] at hmem2
  obtain ⟨w2, hw2⟩ := mem_weighted_sample pr2 (pendingDomains db1) n2 d hmem2
  obtain ⟨st2, hmem2b, hst2, _⟩ := mem_pendingDomains db1 d w2 hw2
  have hl2 : lookupKV db1.domain_state d = some st2 :=
    lookupKV_eq_some_of_mem db1.domain_state d st2 hnd1 hmem2b
  obtain ⟨st9, hl9, hs9⟩ := hcrawl d hd
  rw [hl2] at hl9
  injection hl9 with hl9
  rw [← hl9] at hs9
  rw [hst2] at hs9
  cases hs9

theorem C1_sample_domains_politeness_witness :
    NodupKeys ([((0:ℕ), (⟨0, DomainStatus.pending, 0⟩ : DomainState))]) ∧
    sample_domains (fun _ => (0:ℤ))
        (⟨[(0, ⟨0, DomainStatus.pending, 0⟩)], [], []⟩ : CrawlDb ℕ ℕ) 1 =
      some ([0], ⟨[(0, ⟨0, DomainStatus.crawlInProgress, 0⟩)], [], []⟩) ∧
    ((∀ d ∈ [(0:ℕ)], ∃ st,
        lookupKV [((0:ℕ), (⟨0, DomainStatus.pending, 0⟩ : DomainState))] d = some st ∧
        st.status = DomainStatus.pending)
    ∧ (∀ d ∈ [(0:ℕ)], ∃ st,
        lookupKV (CrawlDb.domain_state
          (⟨[(0, ⟨0, DomainStatus.crawlInProgress, 0⟩)], [], []⟩ : CrawlDb ℕ ℕ)) d = some st ∧
        st.status = DomainStatus.crawlInProgress)
    ∧ (∀ (pr2 : ℕ → ℤ) (n2 : ℕ) (out2 : List ℕ × CrawlDb ℕ ℕ),
        sample_domains pr2
            (⟨[(0, ⟨0, DomainStatus.crawlInProgress, 0⟩)], [], []⟩ : CrawlDb ℕ ℕ) n2 =
          some out2 → ∀ d ∈ [(0:ℕ)], d ∉ out2.1)) :=
  ⟨by unfold NodupKeys; decide, by decide,
    C1_sample_domains_politeness (fun _ => (0:ℤ))
      (⟨[(0, ⟨0, DomainStatus.pending, 0⟩)], [], []⟩ : CrawlDb ℕ ℕ) 1 [0]
      (⟨[(0, ⟨0, DomainStatus.crawlInProgress, 0⟩)], [], []⟩ : CrawlDb ℕ ℕ)
      (by unfold NodupKeys; decide) (by decide)⟩

/-! ## `prepare_jobs` lemmas -/

theorem lookupKV_isSome_of_mem {K V : Type _} [DecidableEq K] (m : List (K × V)) (k : K) (v : V)
    (h : (k, v) ∈ m) : (lookupKV m k).isSome := by
  induction m with
  | nil => simp at h
  | cons p rest ih =>
      obtain ⟨k1, v1⟩ := p
      by_cases h1 : k1 = k
      · simp [lookupKV, h1]
      · simp only [lookupKV, if_neg h1]
        rcases List.mem_cons.mp h with h2 | h2
        · rw [Prod.mk.injEq] at h2
          exact absurd h2.1.symm h1
        · exact ih h2

theorem mem_pendingUrls {U : Type _} (us : List (U × UrlState)) (u : U) (w : ℤ)
    (h : (u, w) ∈ pendingUrls us) :
    ∃ st, (u, st) ∈ us ∧ st.status = UrlStatus.pending ∧ st.weight = w := by
  simp only [pendingUrls, List.mem_filterMap] at h
  obtain ⟨p, hp, he⟩ := h
  by_cases hs : p.2.status = UrlStatus.pending
  · rw [if_pos hs] at he
    injection he with he
    rw [Prod.mk.injEq] at he
    exact ⟨p.2, by rw [← he.1]; exact hp, hs, he.2⟩
  · rw [if_neg hs] at he
    cases he

theorem flipCrawling_isSome {U : Type _} [DecidableEq U] (sampled : List U) :
    ∀ (us : List (U × UrlState)), (∀ u ∈ sampled, (lookupKV us u).isSome) →
      (flipCrawling us sampled).isSome := by
  induction sampled with
  | nil =>
      intro us _
      simp [flipCrawling]
  | cons e rest ih =>
      intro us hall
      have he := hall e (List.mem_cons_self _ _)
      rcases hle : lookupKV us e with _ | ste
      · rw [hle] at he
        simp at he
      · simp only [flipCrawling, hle]
        refine ih _ (fun u hu => ?_)
        exact lookupKV_isSome_insertKV us e u _ (hall u (List.mem_cons_of_mem _ hu))

theorem flipCrawling_preserves_crawl {U : Type _} [DecidableEq U] (sampled : List U) :
    ∀ (us us1 : List (U × UrlState)) (u : U) (st : UrlState),
      flipCrawling us sampled = some us1 →
      lookupKV us u = some st → st.status = UrlStatus.crawling →
      ∃ st9, lookupKV us1 u = some st9 ∧ st9.status = UrlStatus.crawling := by
  induction sampled with
  | nil =>
      intro us us1 u st hrun hl hs
      simp only [flipCrawling] at hrun
      injection hrun with he
      exact ⟨st, he ▸ hl, hs⟩
  | cons e rest ih =>
      intro us us1 u st hrun hl hs
      simp only [flipCrawling] at hrun
      rcases he : lookupKV us e with _ | ste
      · rw [he] at hrun
        cases hrun
      · rw [he] at hrun
        by_cases hd : u = e
        · subst hd
          exact ih _ us1 u _ hrun (lookupKV_insertKV_self us u _) rfl
        · exact ih _ us1 u st hrun (by rwa [lookupKV_insertKV_ne us e u _ hd]) hs

theorem flipCrawling_lookup {U : Type _} [DecidableEq U] (sampled : List U) :
    ∀ (us us1 : List (U × UrlState)), flipCrawling us sampled = some us1 →
      ∀ u ∈ sampled, ∃ st, lookupKV us1 u = some st ∧ st.status = UrlStatus.crawling := by
  induction sampled with
  | nil =>
      intro us us1 _ u hu
      simp at hu
  | cons e rest ih =>
      intro us us1 hrun u hu
      simp only [flipCrawling] at hrun
      rcases he : lookupKV us e with _ | ste
      · rw [he] at hrun
        cases hrun
      · rw [he] at hrun
        rcases List.mem_cons.mp hu with hu1 | hu1
        · subst hu1
          exact flipCrawling_preserves_crawl rest _ us1 u _ hrun
            (lookupKV_insertKV_self us u _) rfl
        · exact ih _ us1 hrun u hu1

theorem flipCrawling_nodup {U : Type _} [DecidableEq U] (sampled : List U) :
    ∀ (us us1 : List (U × UrlState)), NodupKeys us →
      flipCrawling us sampled = some us1 → NodupKeys us1 := by
  induction sampled with
  | nil =>
      intro us us1 hnd hrun
      simp only [flipCrawling] at hrun
      injection hrun with he
      exact he ▸ hnd
  | cons e rest ih =>
      intro us us1 hnd hrun
      simp only [flipCrawling] at hrun
      rcases he : lookupKV us e with _ | ste
      · rw [he] at hrun
        cases hrun
      · rw [he] at hrun
        exact ih _ us1 (nodupKeys_insertKV us e _ hnd) hrun

/-- Characterization of a successful `prepareJob`. -/
theorem prepareJob_eq_some {D U : Type _} [DecidableEq D] [DecidableEq U] (pr : ℕ → ℤ)
    (pick : ℕ) (db : CrawlDb D U) (domain : D) (k : ℕ) (jb : Job D U) (db2 : CrawlDb D U)
    (h : prepareJob pr pick db domain k = some (jb, db2)) :
    ∃ state urls1,
      lookupKV db.domain_state domain = some state ∧
      jb = ⟨domain, false,
        weighted_sample pr
          (pendingUrls ((lookupKV db.urls (domain, pick % (state.max_shard_id + 1))).getD []))
          k⟩ ∧
      flipCrawling ((lookupKV db.urls (domain, pick % (state.max_shard_id + 1))).getD [])
        jb.urls = some urls1 ∧
      db2 = ⟨insertKV db.domain_state domain
               { state with weight := maxOrZero (pendingWeights urls1) },
             insertKV db.urls (domain, pick % (state.max_shard_id + 1)) urls1,
             db.redirects⟩ := by
  unfold prepareJob at h
  rcases hst : lookupKV db.domain_state domain with _ | state
  · rw [hst] at h
    cases h
  · rw [hst] at h
    dsimp only at h
    rcases hfl : flipCrawling
        ((lookupKV db.urls (domain, pick % (state.max_shard_id + 1))).getD [])
        (weighted_sample pr
          (pendingUrls ((lookupKV db.urls (domain, pick % (state.max_shard_id + 1))).getD []))
          k) with _ | urls1
    · rw [hfl] at h
      cases h
    · rw [hfl] at h
      dsimp only at h
      injection h with h
      rw [Prod.mk.injEq] at h
      obtain ⟨hjb, hdb2⟩ := h
      refine ⟨state, urls1, rfl, hjb.symm, ?_, ?_⟩
      · rw [← hjb]
        exact hfl
      · rw [← hdb2]

theorem prepareJob_isSome_iff {D U : Type _} [DecidableEq D] [DecidableEq U] (pr : ℕ → ℤ)
    (pick : ℕ) (db : CrawlDb D U) (domain : D) (k : ℕ) :
    (prepareJob pr pick db domain k).isSome ↔ (lookupKV db.domain_state domain).isSome := by
  constructor
  · intro h
    rcases hst : lookupKV db.domain_state domain with _ | state
    · unfold prepareJob at h
      rw [hst] at h
      simp at h
    · simp
  · intro h
    rcases hst : lookupKV db.domain_state domain with _ | state
    · rw [hst] at h
      simp at h
    · have hflip : (flipCrawling
          ((lookupKV db.urls (domain, pick % (state.max_shard_id + 1))).getD [])
          (weighted_sample pr
            (pendingUrls
              ((lookupKV db.urls (domain, pick % (state.max_shard_id + 1))).getD []))
            k)).isSome := by
        apply flipCrawling_isSome
        intro u hu
        obtain ⟨w, hw⟩ := mem_weighted_sample _ _ _ u hu
        obtain ⟨stu, hmem, _, _⟩ := mem_pendingUrls _ u w hw
        exact lookupKV_isSome_of_mem _ u stu hmem
      rcases Option.isSome_iff_exists.mp hflip with ⟨urls1, hfl⟩
      unfold prepareJob
      rw [hst]
      dsimp only
      rw [hfl]
      simp

theorem prepareJob_preserve {D U : Type _} [DecidableEq D] [DecidableEq U] (pr : ℕ → ℤ)
    (pick : ℕ) (db : CrawlDb D U) (domain : D) (k : ℕ) (jb : Job D U) (db2 : CrawlDb D U)
    (h : prepareJob pr pick db domain k = some (jb, db2)) :
    (∀ x, x ≠ domain → lookupKV db2.domain_state x = lookupKV db.domain_state x) ∧
    (∀ x s, x ≠ domain → lookupKV db2.urls (x, s) = lookupKV db.urls (x, s)) ∧
    (∀ x, (lookupKV db2.domain_state x).isSome ↔ (lookupKV db.domain_state x).isSome) ∧
    db2.redirects = db.redirects := by
  obtain ⟨state, urls1, hst, hjb, hfl, hdb2⟩ := prepareJob_eq_some pr pick db domain k jb db2 h
  subst hdb2
  refine ⟨?_, ?_, ?_, rfl⟩
  · intro x hx
    exact lookupKV_insertKV_ne _ _ _ _ hx
  · intro x s hx
    exact lookupKV_insertKV_ne _ _ _ _ (fun he => hx (congrArg Prod.fst he))
  · intro x
    exact lookupKV_isSome_insertKV_iff _ _ _ _ (by simp [hst])

theorem prepareJob_urlswf {D U : Type _} [DecidableEq D] [DecidableEq U] (pr : ℕ → ℤ)
    (pick : ℕ) (db : CrawlDb D U) (domain : D) (k : ℕ) (jb : Job D U) (db2 : CrawlDb D U)
    (hwf : UrlsWF db) (h : prepareJob pr pick db domain k = some (jb, db2)) : UrlsWF db2 := by
  obtain ⟨state, urls1, hst, hjb, hfl, hdb2⟩ := prepareJob_eq_some pr pick db domain k jb db2 h
  subst hdb2
  intro key shard hl
  by_cases hk : key = (domain, pick % (state.max_shard_id + 1))
  · subst hk
    rw [lookupKV_insertKV_self] at hl
    injection hl with hl
    subst hl
    refine flipCrawling_nodup jb.urls _ urls1 ?_ hfl
    rcases hu0 : lookupKV db.urls (domain, pick % (state.max_shard_id + 1)) with _ | shard0
    · simp [nodupKeys_nil]
    · simpa using hwf _ shard0 hu0
  · rw [lookupKV_insertKV_ne _ _ _ _ hk] at hl
    exact hwf key shard hl

theorem prepareJobsGo_preserve {D U : Type _} [DecidableEq D] [DecidableEq U] (pr : ℕ → ℕ → ℤ)
    (pick : ℕ → ℕ) (k : ℕ) (domains : List D) :
    ∀ (j : ℕ) (db : CrawlDb D U) (jobs0 jobs : List (Job D U)) (db1 : CrawlDb D U) (d : D),
      d ∉ domains →
      prepareJobsGo pr pick k j domains db jobs0 = some (jobs, db1) →
      lookupKV db1.domain_state d = lookupKV db.domain_state d ∧
      (∀ s, lookupKV db1.urls (d, s) = lookupKV db.urls (d, s)) := by
  induction domains with
  | nil =>
      intro j db jobs0 jobs db1 d _ hrun
      simp only [prepareJobsGo] at hrun
      injection hrun with hrun
      rw [Prod.mk.injEq] at hrun
      rw [← hrun.2]
      exact ⟨rfl, fun _ => rfl⟩
  | cons e rest ih =>
      intro j db jobs0 jobs db1 d hd hrun
      simp only [prepareJobsGo] at hrun
      rcases hpj : prepareJob (pr j) (pick j) db e k with _ | r
      · rw [hpj] at hrun
        cases hrun
      · rw [hpj] at hrun
        obtain ⟨jb0, db2⟩ := r
        have hne : d ≠ e := fun he => hd (he ▸ List.mem_cons_self _ _)
        obtain ⟨hds, hurls, _, _⟩ := prepareJob_preserve (pr j) (pick j) db e k jb0 db2 hpj
        obtain ⟨hd1, hu1⟩ := ih (j + 1) db2 (jobs0 ++ [jb0]) jobs db1 d
          (fun hm => hd (List.mem_cons_of_mem _ hm)) hrun
        exact ⟨hd1.trans (hds d hne), fun s => (hu1 s).trans (hurls d s hne)⟩

theorem prepareJobsGo_isSome_iff {D U : Type _} [DecidableEq D] [DecidableEq U] (pr : ℕ → ℕ → ℤ)
    (pick : ℕ → ℕ) (k : ℕ) (domains : List D) :
    ∀ (j : ℕ) (db : CrawlDb D U) (jobs0 : List (Job D U)),
      (prepareJobsGo pr pick k j domains db jobs0).isSome ↔
      ∀ d ∈ domains, (lookupKV db.domain_state d).isSome := by
  induction domains with
  | nil =>
      intro j db jobs0
      simp [prepareJobsGo]
  | cons e rest ih =>
      intro j db jobs0
      simp only [prepareJobsGo]
      rcases hpj : prepareJob (pr j) (pick j) db e k with _ | r
      · have hne : ¬ (lookupKV db.domain_state e).isSome := by
          rw [← prepareJob_isSome_iff (pr j) (pick j) db e k, hpj]
          simp
        constructor
        · intro hf
          simp at hf
        · intro hall
          exact absurd (hall e (List.mem_cons_self _ _)) hne
      · obtain ⟨jb0, db2⟩ := r
        rw [ih (j + 1) db2 (jobs0 ++ [jb0])]
        have hsome : (lookupKV db.domain_state e).isSome := by
          rw [← prepareJob_isSome_iff (pr j) (pick j) db e k, hpj]
          simp
        obtain ⟨_, _, hiff, _⟩ := prepareJob_preserve (pr j) (pick j) db e k jb0 db2 hpj
        constructor
        · intro hall d hd
          rcases List.mem_cons.mp hd with hd1 | hd1
          · exact hd1 ▸ hsome
          · exact (hiff d).mp (hall d hd1)
        · intro hall d hd
          exact (hiff d).mpr (hall d (List.mem_cons_of_mem _ hd))

/-! ## Claim C10: totality of `prepare_jobs` -/

/-- C10: `prepare_jobs` panics (modelled as `none`) exactly when some input
domain has no stored `DomainState`; under the precondition that every input
domain has a record, the `unwrap` branches are unreachable and the call
returns normally. -/
theorem C10_prepare_jobs_totality {D U : Type _} [DecidableEq D] [DecidableEq U]
    (pr : ℕ → ℕ → ℤ) (pick : ℕ → ℕ) (db : CrawlDb D U) (domains : List D) (k : ℕ) :
    (prepare_jobs pr pick db domains k).isSome ↔
      ∀ d ∈ domains, (lookupKV db.domain_state d).isSome :=
  prepareJobsGo_isSome_iff pr pick k domains 0 db []

theorem C10_prepare_jobs_totality_witness :
    ((prepare_jobs (fun _ _ => (0:ℤ)) (fun _ => 0)
        (⟨[(0, ⟨0, DomainStatus.pending, 0⟩)], [], []⟩ : CrawlDb ℕ ℕ) [0, 1] 1).isSome ↔
      ∀ d ∈ [0, 1], (lookupKV
        (CrawlDb.domain_state
          (⟨[(0, ⟨0, DomainStatus.pending, 0⟩)], [], []⟩ : CrawlDb ℕ ℕ)) d).isSome) :=
  C10_prepare_jobs_totality (fun _ _ => (0:ℤ)) (fun _ => 0)
    (⟨[(0, ⟨0, DomainStatus.pending, 0⟩)], [], []⟩ : CrawlDb ℕ ℕ) [0, 1] 1

/-- The facts a successful `prepareJob` establishes about its own domain:
the recomputed domain weight is the max pending weight of the written
shard, and every url of the returned job is `Crawling` in that shard. -/
theorem prepareJob_crawling {D U : Type _} [DecidableEq D] [DecidableEq U] (pr : ℕ → ℤ)
    (pick : ℕ) (db : CrawlDb D U) (domain : D) (k : ℕ) (jb : Job D U) (db2 : CrawlDb D U)
    (h : prepareJob pr pick db domain k = some (jb, db2)) :
    jb.domain = domain ∧
    ∃ sid shard st1,
      lookupKV db2.domain_state domain = some st1 ∧
      st1.weight = maxOrZero (pendingWeights shard) ∧
      sid = pick % (st1.max_shard_id + 1) ∧
      lookupKV db2.urls (domain, sid) = some shard ∧
      ∀ u ∈ jb.urls, ∃ stu, lookupKV shard u = some stu ∧ stu.status = UrlStatus.crawling := by
  obtain ⟨state, urls1, hst, hjb, hfl, hdb2⟩ := prepareJob_eq_some pr pick db domain k jb db2 h
  subst hdb2
  refine ⟨by rw [hjb], pick % (state.max_shard_id + 1), urls1,
    { state with weight := maxOrZero (pendingWeights urls1) },
    lookupKV_insertKV_self _ _ _, rfl, rfl, lookupKV_insertKV_self _ _ _, ?_⟩
  intro u hu
  exact flipCrawling_lookup jb.urls _ urls1 hfl u hu

theorem prepareJobsGo_urlswf {D U : Type _} [DecidableEq D] [DecidableEq U] (pr : ℕ → ℕ → ℤ)
    (pick : ℕ → ℕ) (k : ℕ) (domains : List D) :
    ∀ (j : ℕ) (db : CrawlDb D U) (jobs0 jobs : List (Job D U)) (db1 : CrawlDb D U),
      UrlsWF db → prepareJobsGo pr pick k j domains db jobs0 = some (jobs, db1) →
      UrlsWF db1 := by
  induction domains with
  | nil =>
      intro j db jobs0 jobs db1 hwf hrun
      simp only [prepareJobsGo] at hrun
      injection hrun with hrun
      rw [Prod.mk.injEq] at hrun
      rw [← hrun.2]
      exact hwf
  | cons e rest ih =>
      intro j db jobs0 jobs db1 hwf hrun
      simp only [prepareJobsGo] at hrun
      rcases hpj : prepareJob (pr j) (pick j) db e k with _ | r
      · rw [hpj] at hrun
        cases hrun
      · rw [hpj] at hrun
        obtain ⟨jb0, db2⟩ := r
        exact ih (j + 1) db2 (jobs0 ++ [jb0]) jobs db1
          (prepareJob_urlswf (pr j) (pick j) db e k jb0 db2 hwf hpj) hrun

theorem prepareJobsGo_domain_facts {D U : Type _} [DecidableEq D] [DecidableEq U]
    (pr : ℕ → ℕ → ℤ) (pick : ℕ → ℕ) (k : ℕ) (domains : List D) :
    ∀ (j : ℕ) (db : CrawlDb D U) (jobs0 jobs : List (Job D U)) (db1 : CrawlDb D U),
      domains.Nodup →
      prepareJobsGo pr pick k j domains db jobs0 = some (jobs, db1) →
      ∀ jb ∈ jobs, jb ∈ jobs0 ∨
        ∃ sid shard st1,
          lookupKV db1.domain_state jb.domain = some st1 ∧
          st1.weight = maxOrZero (pendingWeights shard) ∧
          lookupKV db1.urls (jb.domain, sid) = some shard ∧
          ∀ u ∈ jb.urls, ∃ stu, lookupKV shard u = some stu ∧
            stu.status = UrlStatus.crawling := by
  induction domains with
  | nil =>
      intro j db jobs0 jobs db1 _ hrun jb hjb
      simp only [prepareJobsGo] at hrun
      injection hrun with hrun
      rw [Prod.mk.injEq] at hrun
      exact Or.inl (hrun.1 ▸ hjb)
  | cons e rest ih =>
      intro j db jobs0 jobs db1 hnd hrun jb hjb
      simp only [List.nodup_cons] at hnd
      simp only [prepareJobsGo] at hrun
      rcases hpj : prepareJob (pr j) (pick j) db e k with _ | r
      · rw [hpj] at hrun
        cases hrun
      · rw [hpj] at hrun
        obtain ⟨jb0, db2⟩ := r
        rcases ih (j + 1) db2 (jobs0 ++ [jb0]) jobs db1 hnd.2 hrun jb hjb with hin | hfacts
        · rcases List.mem_append.mp hin with hin | hin
          · exact Or.inl hin
          · right
            have hjb0 : jb = jb0 := by simpa using hin
            subst hjb0
            obtain ⟨hdom, sid, shard, st1, hl1, hw1, _, hl2, hcr⟩ :=
              prepareJob_crawling (pr j) (pick j) db e k jb db2 hpj
            obtain ⟨hpd, hpu⟩ := prepareJobsGo_preserve pr pick k rest (j + 1) db2
              (jobs0 ++ [jb]) jobs db1 e hnd.1 hrun
            refine ⟨sid, shard, st1, ?_, hw1, ?_, hcr⟩
            · rw [hdom, hpd, hl1]
            · rw [hdom, hpu sid, hl2]
        · exact Or.inr hfacts

/-! ## Claim C8: `prepare_jobs` advances url status -/

/-- C8: every url of a job returned by `prepare_jobs` has status `Crawling`
in the persisted shard it was sampled from, and a subsequent `prepare_jobs`
call on the same domain that selects the same shard returns none of those
urls (only `Pending` urls are eligible for sampling). -/
theorem C8_prepare_jobs_url_status {D U : Type _} [DecidableEq D] [DecidableEq U]
    (pr : ℕ → ℕ → ℤ) (pick : ℕ → ℕ) (db : CrawlDb D U) (domains : List D) (k : ℕ)
    (jobs : List (Job D U)) (db1 : CrawlDb D U) (jb : Job D U)
    (hwf : UrlsWF db) (hnd : domains.Nodup)
    (hrun : prepare_jobs pr pick db domains k = some (jobs, db1)) (hjb : jb ∈ jobs) :
    ∃ sid shard st1,
      lookupKV db1.domain_state jb.domain = some st1 ∧
      lookupKV db1.urls (jb.domain, sid) = some shard ∧
      (∀ u ∈ jb.urls, ∃ stu, lookupKV shard u = some stu ∧
        stu.status = UrlStatus.crawling) ∧
      (∀ (pr2 : ℕ → ℕ → ℤ) (pick2 : ℕ → ℕ) (k2 : ℕ) (out2 : List (Job D U) × CrawlDb D U),
        prepare_jobs pr2 pick2 db1 [jb.domain] k2 = some out2 →
        pick2 0 % (st1.max_shard_id + 1) = sid →
        ∀ jb2 ∈ out2.1, ∀ u ∈ jb.urls, u ∉ jb2.urls) := by
  have hwf1 : UrlsWF db1 := prepareJobsGo_urlswf pr pick k domains 0 db [] jobs db1 hwf hrun
  rcases prepareJobsGo_domain_facts pr pick k domains 0 db [] jobs db1 hnd hrun jb hjb with
    hin | hfacts
  · simp at hin
  obtain ⟨sid, shard, st1, hl1, _, hl2, hcr⟩ := hfacts
  refine ⟨sid, shard, st1, hl1, hl2, hcr, ?_⟩
  intro pr2 pick2 k2 out2 hrun2 hsid jb2 hjb2 u hu hu2
  simp only [prepare_jobs, prepareJobsGo] at hrun2
  rcases hpj2 : prepareJob (pr2 0) (pick2 0) db1 jb.domain k2 with _ | r2
  · rw [hpj2] at hrun2
    cases hrun2
  · rw [hpj2] at hrun2
    obtain ⟨jb2c, db3⟩ := r2
    injection hrun2 with hrun2
    rw [Prod.mk.injEq] at hrun2
    have hjb2c : jb2 = jb2c := by
      have := hrun2.1 ▸ hjb2
      simpa using this
    subst hjb2c
    obtain ⟨state2, urls2, hst2, hjbeq, _, _⟩ :=
      prepareJob_eq_some (pr2 0) (pick2 0) db1 jb.domain k2 jb2 db3 hpj2
    rw [hl1] at hst2
    injection hst2 with hst2
    subst hst2
    rw [hsid, hl2] at hjbeq
    have hu2b : u ∈ weighted_sample (pr2 0) (pendingUrls ((some shard).getD [])) k2 := by
      rw [hjbeq] at hu2
      exact hu2
    simp only [Option.getD_some] at hu2b
    obtain ⟨w, hw⟩ := mem_weighted_sample (pr2 0) (pendingUrls shard) k2 u hu2b
    obtain ⟨stp, hmemp, hstp, _⟩ := mem_pendingUrls shard u w hw
    have hndshard : NodupKeys shard := hwf1 (jb.domain, sid) shard hl2
    have hlp : lookupKV shard u = some stp :=
      lookupKV_eq_some_of_mem shard u stp hndshard hmemp
    obtain ⟨stu, hlu, hsu⟩ := hcr u hu
    rw [hlp] at hlu
    injection hlu with hlu
    rw [← hlu] at hsu
    rw [hstp] at hsu
    cases hsu

theorem C8_prepare_jobs_url_status_witness :
    UrlsWF (⟨[(0, ⟨0, DomainStatus.pending, 0⟩)], [], []⟩ : CrawlDb ℕ ℕ) ∧
    ([(0:ℕ)].Nodup ∧
      prepare_jobs (fun _ _ => (0:ℤ)) (fun _ => 0)
          (⟨[(0, ⟨0, DomainStatus.pending, 0⟩)], [], []⟩ : CrawlDb ℕ ℕ) [0] 1 =
        some ([⟨0, false, []⟩],
          ⟨[(0, ⟨0, DomainStatus.pending, 0⟩)], [((0, 0), [])], []⟩) ∧
      (⟨0, false, []⟩ : Job ℕ ℕ) ∈ [(⟨0, false, []⟩ : Job ℕ ℕ)]) ∧
    (∃ sid shard st1,
      lookupKV (CrawlDb.domain_state
          (⟨[(0, ⟨0, DomainStatus.pending, 0⟩)], [((0, 0), [])], []⟩ : CrawlDb ℕ ℕ))
          (Job.domain (⟨0, false, []⟩ : Job ℕ ℕ)) = some st1 ∧
      lookupKV (CrawlDb.urls
          (⟨[(0, ⟨0, DomainStatus.pending, 0⟩)], [((0, 0), [])], []⟩ : CrawlDb ℕ ℕ))
          (Job.domain (⟨0, false, []⟩ : Job ℕ ℕ), sid) = some shard ∧
      (∀ u ∈ Job.urls (⟨0, false, []⟩ : Job ℕ ℕ), ∃ stu, lookupKV shard u = some stu ∧
        stu.status = UrlStatus.crawling) ∧
      (∀ (pr2 : ℕ → ℕ → ℤ) (pick2 : ℕ → ℕ) (k2 : ℕ) (out2 : List (Job ℕ ℕ) × CrawlDb ℕ ℕ),
        prepare_jobs pr2 pick2
            (⟨[(0, ⟨0, DomainStatus.pending, 0⟩)], [((0, 0), [])], []⟩ : CrawlDb ℕ ℕ)
            [Job.domain (⟨0, false, []⟩ : Job ℕ ℕ)] k2 = some out2 →
        pick2 0 % (st1.max_shard_id + 1) = sid →
        ∀ jb2 ∈ out2.1, ∀ u ∈ Job.urls (⟨0, false, []⟩ : Job ℕ ℕ), u ∉ jb2.urls)) :=
  ⟨fun key shard h => by simp [lookupKV] at h,
    ⟨by decide, by decide, by decide⟩,
    C8_prepare_jobs_url_status (fun _ _ => (0:ℤ)) (fun _ => 0)
      (⟨[(0, ⟨0, DomainStatus.pending, 0⟩)], [], []⟩ : CrawlDb ℕ ℕ) [0] 1
      [⟨0, false, []⟩] (⟨[(0, ⟨0, DomainStatus.pending, 0⟩)], [((0, 0), [])], []⟩ : CrawlDb ℕ ℕ)
      ⟨0, false, []⟩ (fun key shard h => by simp [lookupKV] at h) (by decide) (by decide)
      (by decide)⟩

/-! ## `insert_urls` loop lemmas -/

theorem bumpWeight_shape (ds : DomainState) (w : ℤ) :
    ∃ v, ds.weight ≤ v ∧ w ≤ v ∧ bumpWeight ds w = { ds with weight := v } := by
  unfold bumpWeight
  split
  · exact ⟨w, le_of_lt (by assumption), le_refl w, rfl⟩
  · exact ⟨ds.weight, le_refl _, le_of_not_lt (by assumption), rfl⟩

theorem insertUrlsLoop_ds_shape {U : Type _} [DecidableEq U] (urls : List (UrlToInsert U)) :
    ∀ (us : List (U × UrlState)) (ds : DomainState),
      ∃ w, ds.weight ≤ w ∧ (insertUrlsLoop us ds urls).2 = { ds with weight := w } := by
  induction urls with
  | nil =>
      intro us ds
      exact ⟨ds.weight, le_refl _, rfl⟩
  | cons u rest ih =>
      intro us ds
      simp only [insertUrlsLoop]
      obtain ⟨v, hdv, _, hbw⟩ := bumpWeight_shape ds (newUrlState us u).weight
      rw [hbw]
      obtain ⟨w, hw, he⟩ := ih (insertKV us u.url (newUrlState us u)) { ds with weight := v }
      exact ⟨w, le_trans hdv hw, he⟩

theorem insertUrlsLoop_length {U : Type _} [DecidableEq U] (urls : List (UrlToInsert U)) :
    ∀ (us : List (U × UrlState)) (ds : DomainState),
      (urls.map UrlToInsert.url).Nodup →
      (∀ x ∈ urls, lookupKV us x.url = none) →
      (insertUrlsLoop us ds urls).1.length = us.length + urls.length := by
  induction urls with
  | nil =>
      intro us ds _ _
      simp [insertUrlsLoop]
  | cons u rest ih =>
      intro us ds hnd hfresh
      simp only [List.map_cons, List.nodup_cons] at hnd
      simp only [insertUrlsLoop]
      have hfresh2 : ∀ x ∈ rest, lookupKV (insertKV us u.url (newUrlState us u)) x.url = none := by
        intro x hx
        have hne : x.url ≠ u.url := by
          intro he
          exact hnd.1 (he ▸ List.mem_map.mpr ⟨x, hx, rfl⟩)
        rw [lookupKV_insertKV_ne us u.url x.url _ hne]
        exact hfresh x (List.mem_cons_of_mem _ hx)
      rw [ih _ _ hnd.2 hfresh2,
        length_insertKV_none us u.url _ (hfresh u (List.mem_cons_self _ _))]
      simp only [List.length_cons]
      omega

theorem insertUrlsLoop_lookup_preserve {U : Type _} [DecidableEq U] (urls : List (UrlToInsert U)) :
    ∀ (us : List (U × UrlState)) (ds : DomainState) (v : U), v ∉ urls.map UrlToInsert.url →
      lookupKV (insertUrlsLoop us ds urls).1 v = lookupKV us v := by
  induction urls with
  | nil =>
      intro us ds v _
      rfl
  | cons u rest ih =>
      intro us ds v hv
      simp only [List.map_cons, List.mem_cons] at hv
      push_neg at hv
      simp only [insertUrlsLoop]
      rw [ih _ _ v hv.2, lookupKV_insertKV_ne us u.url v _ hv.1]

theorem insertUrlsLoop_replicate_some {U : Type _} [DecidableEq U] (k : ℕ) :
    ∀ (us : List (U × UrlState)) (ds : DomainState) (u : U) (w : ℤ) (stt : UrlStatus),
      lookupKV us u = some ⟨w, stt⟩ →
      lookupKV (insertUrlsLoop us ds (List.replicate k ⟨u, true⟩)).1 u =
        some ⟨w + (k : ℤ), stt⟩ := by
  induction k with
  | zero =>
      intro us ds u w stt hl
      simpa [insertUrlsLoop] using hl
  | succ n ih =>
      intro us ds u w stt hl
      simp only [List.replicate_succ, insertUrlsLoop]
      have hnew : newUrlState us (⟨u, true⟩ : UrlToInsert U) = ⟨w + 1, stt⟩ := by
        simp [newUrlState, hl]
      rw [hnew]
      rw [ih (insertKV us u ⟨w + 1, stt⟩)
        (bumpWeight ds (UrlState.weight ⟨w + 1, stt⟩)) u (w + 1) stt
        (lookupKV_insertKV_self us u _)]
      congr 2
      push_cast
      ring

theorem insertUrlsLoop_replicate_none {U : Type _} [DecidableEq U] (k : ℕ) (hk : 1 ≤ k)
    (us : List (U × UrlState)) (ds : DomainState) (u : U)
    (hl : lookupKV us u = none) :
    lookupKV (insertUrlsLoop us ds (List.replicate k ⟨u, true⟩)).1 u =
      some ⟨(k : ℤ), UrlStatus.pending⟩ := by
  rcases k with _ | n
  · omega
  · simp only [List.replicate_succ, insertUrlsLoop]
    have hnew : newUrlState us (⟨u, true⟩ : UrlToInsert U) = ⟨1, UrlStatus.pending⟩ := by
      simp [newUrlState, hl]
    rw [hnew]
    rw [insertUrlsLoop_replicate_some n (insertKV us u ⟨1, UrlStatus.pending⟩)
      (bumpWeight ds (UrlState.weight ⟨1, UrlStatus.pending⟩)) u 1 UrlStatus.pending
      (lookupKV_insertKV_self us u _)]
    congr 2
    push_cast
    ring

theorem insertUrlsLoop_fresh_lookup {U : Type _} [DecidableEq U] (urls : List (UrlToInsert U)) :
    ∀ (us : List (U × UrlState)) (ds : DomainState),
      (urls.map UrlToInsert.url).Nodup →
      (∀ x ∈ urls, lookupKV us x.url = none) →
      ∀ x ∈ urls, lookupKV (insertUrlsLoop us ds urls).1 x.url =
        some ⟨if x.different_domain then 1 else 0, UrlStatus.pending⟩ := by
  induction urls with
  | nil =>
      intro us ds _ _ x hx
      simp at hx
  | cons u rest ih =>
      intro us ds hnd hfresh x hx
      simp only [List.map_cons, List.nodup_cons] at hnd
      simp only [insertUrlsLoop]
      rcases List.mem_cons.mp hx with hx1 | hx1
      · subst hx1
        have hnew : newUrlState us x =
            ⟨if x.different_domain then 1 else 0, UrlStatus.pending⟩ := by
          cases hd : x.different_domain
          · simp [newUrlState, hfresh x (List.mem_cons_self _ _), hd]
          · simp [newUrlState, hfresh x (List.mem_cons_self _ _), hd]
        rw [hnew]
        rw [insertUrlsLoop_lookup_preserve rest _ _ x.url hnd.1]
        exact lookupKV_insertKV_self us x.url _
      · refine ih _ _ hnd.2 ?_ x hx1
        intro y hy
        have hne : y.url ≠ u.url := by
          intro he
          exact hnd.1 (he ▸ List.mem_map.mpr ⟨y, hy, rfl⟩)
        rw [lookupKV_insertKV_ne us u.url y.url _ hne]
        exact hfresh y (List.mem_cons_of_mem _ hy)

/-! ## `insertDomainUrls` lemmas -/

theorem insertDomainUrlsFinish_fst {D U : Type _} [DecidableEq D] [DecidableEq U]
    (db : CrawlDb D U) (domain : D) (urls : List (UrlToInsert U)) (ds : DomainState)
    (us : List (U × UrlState)) (sid : ℕ) (tr : List (WriteEvent D)) :
    (insertDomainUrlsFinish db domain urls ds us sid tr).1 =
      ⟨insertKV db.domain_state domain (insertUrlsLoop us ds urls).2,
       insertKV db.urls (domain, sid) (insertUrlsLoop us ds urls).1,
       db.redirects⟩ := rfl

theorem insertDomainUrlsFinish_snd {D U : Type _} [DecidableEq D] [DecidableEq U]
    (db : CrawlDb D U) (domain : D) (urls : List (UrlToInsert U)) (ds : DomainState)
    (us : List (U × UrlState)) (sid : ℕ) (tr : List (WriteEvent D)) :
    (insertDomainUrlsFinish db domain urls ds us sid tr).2 =
      tr ++ [WriteEvent.domainWrite domain, WriteEvent.shardWrite domain sid] := rfl

theorem insertDomainUrlsFinish_preserve {D U : Type _} [DecidableEq D] [DecidableEq U]
    (db : CrawlDb D U) (domain : D) (urls : List (UrlToInsert U)) (ds : DomainState)
    (us : List (U × UrlState)) (sid : ℕ) (tr : List (WriteEvent D)) :
    (∀ x, x ≠ domain →
      lookupKV (insertDomainUrlsFinish db domain urls ds us sid tr).1.domain_state x =
        lookupKV db.domain_state x) ∧
    (∀ x s, x ≠ domain →
      lookupKV (insertDomainUrlsFinish db domain urls ds us sid tr).1.urls (x, s) =
        lookupKV db.urls (x, s)) ∧
    (∀ key, key ≠ (domain, sid) →
      lookupKV (insertDomainUrlsFinish db domain urls ds us sid tr).1.urls key =
        lookupKV db.urls key) ∧
    (insertDomainUrlsFinish db domain urls ds us sid tr).1.redirects = db.redirects := by
  rw [insertDomainUrlsFinish_fst]
  refine ⟨fun x hx => ?_, fun x s hx => ?_, fun key hk => ?_, rfl⟩
  · exact lookupKV_insertKV_ne db.domain_state domain x _ hx
  · exact lookupKV_insertKV_ne db.urls (domain, sid) (x, s) _
      (fun he => hx (congrArg Prod.fst he))
  · exact lookupKV_insertKV_ne db.urls (domain, sid) key _ hk

theorem insertDomainUrlsFinish_self_state {D U : Type _} [DecidableEq D] [DecidableEq U]
    (db : CrawlDb D U) (domain : D) (urls : List (UrlToInsert U)) (ds : DomainState)
    (us : List (U × UrlState)) (sid : ℕ) (tr : List (WriteEvent D)) :
    ∃ w, ds.weight ≤ w ∧
      lookupKV (insertDomainUrlsFinish db domain urls ds us sid tr).1.domain_state domain =
        some { ds with weight := w } := by
  obtain ⟨w, hw, he⟩ := insertUrlsLoop_ds_shape urls us ds
  refine ⟨w, hw, ?_⟩
  rw [insertDomainUrlsFinish_fst]
  show lookupKV (insertKV db.domain_state domain (insertUrlsLoop us ds urls).2) domain = _
  rw [lookupKV_insertKV_self, he]

theorem insertDomainUrlsFinish_self_shard {D U : Type _} [DecidableEq D] [DecidableEq U]
    (db : CrawlDb D U) (domain : D) (urls : List (UrlToInsert U)) (ds : DomainState)
    (us : List (U × UrlState)) (sid : ℕ) (tr : List (WriteEvent D)) :
    lookupKV (insertDomainUrlsFinish db domain urls ds us sid tr).1.urls (domain, sid) =
      some (insertUrlsLoop us ds urls).1 := by
  rw [insertDomainUrlsFinish_fst]
  exact lookupKV_insertKV_self db.urls (domain, sid) _

theorem insertDomainUrlsCore_eq {D U : Type _} [DecidableEq D] [DecidableEq U]
    (db : CrawlDb D U) (domain : D) (urls : List (UrlToInsert U)) (st : DomainState)
    (tr : List (WriteEvent D)) :
    insertDomainUrlsCore db domain urls st tr =
      if URLS_PER_SHARD ≤ ((lookupKV db.urls (domain, st.max_shard_id)).getD []).length then
        insertDomainUrlsFinish db domain urls { st with max_shard_id := st.max_shard_id + 1 }
          [] (st.max_shard_id + 1) tr
      else
        insertDomainUrlsFinish db domain urls st
          ((lookupKV db.urls (domain, st.max_shard_id)).getD []) st.max_shard_id tr := rfl

theorem insertDomainUrls_eq_some_branch {D U : Type _} [DecidableEq D] [DecidableEq U]
    (db : CrawlDb D U) (domain : D) (urls : List (UrlToInsert U)) (st : DomainState)
    (hst : lookupKV db.domain_state domain = some st) :
    insertDomainUrls db domain urls = insertDomainUrlsCore db domain urls st [] := by
  unfold insertDomainUrls
  rw [hst]

theorem insertDomainUrls_eq_none_branch {D U : Type _} [DecidableEq D] [DecidableEq U]
    (db : CrawlDb D U) (domain : D) (urls : List (UrlToInsert U))
    (hst : lookupKV db.domain_state domain = none) :
    insertDomainUrls db domain urls =
      insertDomainUrlsCore
        { db with domain_state := insertKV db.domain_state domain ⟨0, DomainStatus.pending, 0⟩ }
        domain urls ⟨0, DomainStatus.pending, 0⟩ [WriteEvent.domainWrite domain] := by
  unfold insertDomainUrls
  rw [hst]

theorem insertDomainUrlsCore_self_state {D U : Type _} [DecidableEq D] [DecidableEq U]
    (db : CrawlDb D U) (domain : D) (urls : List (UrlToInsert U)) (st : DomainState)
    (tr : List (WriteEvent D)) :
    ∃ st1, lookupKV (insertDomainUrlsCore db domain urls st tr).1.domain_state domain =
        some st1 ∧
      st.weight ≤ st1.weight ∧ st.max_shard_id ≤ st1.max_shard_id ∧
      st1.status = st.status := by
  rw [insertDomainUrlsCore_eq]
  split
  · obtain ⟨w, hw, hl⟩ := insertDomainUrlsFinish_self_state db domain urls
      { st with max_shard_id := st.max_shard_id + 1 } [] (st.max_shard_id + 1) tr
    exact ⟨_, hl, hw, Nat.le_succ _, rfl⟩
  · obtain ⟨w, hw, hl⟩ := insertDomainUrlsFinish_self_state db domain urls st
      ((lookupKV db.urls (domain, st.max_shard_id)).getD []) st.max_shard_id tr
    exact ⟨_, hl, hw, le_refl _, rfl⟩

theorem insertDomainUrlsCore_preserve {D U : Type _} [DecidableEq D] [DecidableEq U]
    (db : CrawlDb D U) (domain : D) (urls : List (UrlToInsert U)) (st : DomainState)
    (tr : List (WriteEvent D)) :
    (∀ x, x ≠ domain →
      lookupKV (insertDomainUrlsCore db domain urls st tr).1.domain_state x =
        lookupKV db.domain_state x) ∧
    (∀ x s, x ≠ domain →
      lookupKV (insertDomainUrlsCore db domain urls st tr).1.urls (x, s) =
        lookupKV db.urls (x, s)) ∧
    (insertDomainUrlsCore db domain urls st tr).1.redirects = db.redirects := by
  rw [insertDomainUrlsCore_eq]
  split
  · obtain ⟨h1, h2, _, h4⟩ := insertDomainUrlsFinish_preserve db domain urls
      { st with max_shard_id := st.max_shard_id + 1 } [] (st.max_shard_id + 1) tr
    exact ⟨h1, h2, h4⟩
  · obtain ⟨h1, h2, _, h4⟩ := insertDomainUrlsFinish_preserve db domain urls st
      ((lookupKV db.urls (domain, st.max_shard_id)).getD []) st.max_shard_id tr
    exact ⟨h1, h2, h4⟩

theorem insertDomainUrls_preserve {D U : Type _} [DecidableEq D] [DecidableEq U]
    (db : CrawlDb D U) (domain : D) (urls : List (UrlToInsert U)) :
    (∀ x, x ≠ domain →
      lookupKV (insertDomainUrls db domain urls).1.domain_state x =
        lookupKV db.domain_state x) ∧
    (∀ x s, x ≠ domain →
      lookupKV (insertDomainUrls db domain urls).1.urls (x, s) = lookupKV db.urls (x, s)) ∧
    (insertDomainUrls db domain urls).1.redirects = db.redirects := by
  rcases hst : lookupKV db.domain_state domain with _ | st
  · rw [insertDomainUrls_eq_none_branch db domain urls hst]
    obtain ⟨h1, h2, h4⟩ := insertDomainUrlsCore_preserve
      { db with domain_state := insertKV db.domain_state domain ⟨0, DomainStatus.pending, 0⟩ }
      domain urls ⟨0, DomainStatus.pending, 0⟩ [WriteEvent.domainWrite domain]
    refine ⟨fun x hx => ?_, h2, h4⟩
    rw [h1 x hx]
    exact lookupKV_insertKV_ne db.domain_state domain x _ hx
  · rw [insertDomainUrls_eq_some_branch db domain urls st hst]
    exact insertDomainUrlsCore_preserve db domain urls st []

theorem insertDomainUrls_state_mono {D U : Type _} [DecidableEq D] [DecidableEq U]
    (db : CrawlDb D U) (domain : D) (urls : List (UrlToInsert U)) (st0 : DomainState)
    (hst : lookupKV db.domain_state domain = some st0) :
    ∃ st1, lookupKV (insertDomainUrls db domain urls).1.domain_state domain = some st1 ∧
      st0.weight ≤ st1.weight ∧ st0.max_shard_id ≤ st1.max_shard_id := by
  rw [insertDomainUrls_eq_some_branch db domain urls st0 hst]
  obtain ⟨st1, hl, hw, hm, _⟩ := insertDomainUrlsCore_self_state db domain urls st0 []
  exact ⟨st1, hl, hw, hm⟩

theorem insertDomainUrls_self_isSome {D U : Type _} [DecidableEq D] [DecidableEq U]
    (db : CrawlDb D U) (domain : D) (urls : List (UrlToInsert U)) :
    (lookupKV (insertDomainUrls db domain urls).1.domain_state domain).isSome := by
  rcases hst : lookupKV db.domain_state domain with _ | st
  · rw [insertDomainUrls_eq_none_branch db domain urls hst]
    obtain ⟨st1, hl, _, _, _⟩ := insertDomainUrlsCore_self_state
      { db with domain_state := insertKV db.domain_state domain ⟨0, DomainStatus.pending, 0⟩ }
      domain urls ⟨0, DomainStatus.pending, 0⟩ [WriteEvent.domainWrite domain]
    simp [hl]
  · rw [insertDomainUrls_eq_some_branch db domain urls st hst]
    obtain ⟨st1, hl, _, _, _⟩ := insertDomainUrlsCore_self_state db domain urls st []
    simp [hl]

/-! ## Grouping lemmas for single-target batches -/

theorem pushUrl_fold_acc {D U : Type _} [DecidableEq D] (domainOf : U → D) (src d : D)
    (urls : List U) :
    ∀ (pre : List (UrlToInsert U)), (∀ u ∈ urls, domainOf u = d) →
      urls.foldl (pushUrl domainOf src) [(d, pre)] =
        [(d, pre ++ urls.map fun u => ⟨u, decide (src ≠ d)⟩)] := by
  induction urls with
  | nil =>
      intro pre _
      simp
  | cons u us ih =>
      intro pre hdom
      have hu : domainOf u = d := hdom u (List.mem_cons_self _ _)
      have hstep : pushUrl domainOf src [(d, pre)] u =
          [(d, pre ++ [⟨u, decide (src ≠ d)⟩])] := by
        simp [pushUrl, hu, lookupKV, insertKV]
      simp only [List.foldl_cons, hstep]
      rw [ih _ (fun v hv => hdom v (List.mem_cons_of_mem _ hv))]
      simp

theorem pushUrl_fold_nil {D U : Type _} [DecidableEq D] (domainOf : U → D) (src d : D)
    (u0 : U) (us : List U) (hdom : ∀ u ∈ u0 :: us, domainOf u = d) :
    (u0 :: us).foldl (pushUrl domainOf src) [] =
      [(d, (u0 :: us).map fun u => ⟨u, decide (src ≠ d)⟩)] := by
  have hu : domainOf u0 = d := hdom u0 (List.mem_cons_self _ _)
  have hstep : pushUrl domainOf src [] u0 = [(d, [⟨u0, decide (src ≠ d)⟩])] := by
    simp [pushUrl, hu, lookupKV, insertKV]
  simp only [List.foldl_cons, hstep]
  rw [pushUrl_fold_acc domainOf src d us _ (fun v hv => hdom v (List.mem_cons_of_mem _ hv))]
  simp

theorem groupDiscovered_acc {D U : Type _} [DecidableEq D] (domainOf : U → D) (d : D)
    (responses : List (JobResponse D U)) :
    ∀ (pre : List (UrlToInsert U)),
      (∀ r ∈ responses, ∀ u ∈ r.discovered_urls, domainOf u = d) →
      responses.foldl
          (fun acc res => res.discovered_urls.foldl (pushUrl domainOf res.domain) acc)
          [(d, pre)] =
        [(d, pre ++ responses.flatMap
          fun r => r.discovered_urls.map fun u => ⟨u, decide (r.domain ≠ d)⟩)] := by
  induction responses with
  | nil =>
      intro pre _
      simp
  | cons r rs ih =>
      intro pre hdom
      simp only [List.foldl_cons]
      rw [pushUrl_fold_acc domainOf r.domain d r.discovered_urls pre
        (hdom r (List.mem_cons_self _ _))]
      rw [ih _ (fun q hq => hdom q (List.mem_cons_of_mem _ hq))]
      simp

theorem groupDiscovered_const {D U : Type _} [DecidableEq D] (domainOf : U → D) (d : D)
    (r : JobResponse D U) (rs : List (JobResponse D U)) (u0 : U) (us : List U)
    (hr : r.discovered_urls = u0 :: us)
    (hdom : ∀ q ∈ r :: rs, ∀ u ∈ q.discovered_urls, domainOf u = d) :
    groupDiscovered domainOf (r :: rs) =
      [(d, (r :: rs).flatMap
        fun q => q.discovered_urls.map fun u => ⟨u, decide (q.domain ≠ d)⟩)] := by
  unfold groupDiscovered
  simp only [List.foldl_cons]
  rw [hr, pushUrl_fold_nil domainOf r.domain d u0 us
    (by rw [← hr]; exact hdom r (List.mem_cons_self _ _))]
  rw [groupDiscovered_acc domainOf d rs _ (fun q hq => hdom q (List.mem_cons_of_mem _ hq))]
  simp [hr]

/-! ## `insert_urls` on batches with no redirects -/

theorem applyRedirects_no_redirects {D U : Type _} [DecidableEq U]
    (responses : List (JobResponse D U)) :
    ∀ (red : List (U × U)), (∀ r ∈ responses, r.url_responses = []) →
      applyRedirects red responses = red := by
  induction responses with
  | nil =>
      intro red _
      rfl
  | cons r rs ih =>
      intro red hall
      simp only [applyRedirects, List.foldl_cons]
      rw [hall r (List.mem_cons_self _ _)]
      simp only [List.foldl_nil]
      exact ih red (fun q hq => hall q (List.mem_cons_of_mem _ hq))

theorem insert_urls_no_redirects {D U : Type _} [DecidableEq D] [DecidableEq U]
    (domainOf : U → D) (db : CrawlDb D U) (responses : List (JobResponse D U))
    (hnr : ∀ r ∈ responses, r.url_responses = []) :
    insert_urls domainOf db responses =
      insertGroupsFold (groupDiscovered domainOf responses) (db, []) := by
  unfold insert_urls
  rw [applyRedirects_no_redirects responses db.redirects hnr]

theorem insertGroupsFold_single {D U : Type _} [DecidableEq D] [DecidableEq U] (d : D)
    (batch : List (UrlToInsert U)) (db : CrawlDb D U) (tr : List (WriteEvent D)) :
    insertGroupsFold [(d, batch)] (db, tr) =
      ((insertDomainUrls db d batch).1, tr ++ (insertDomainUrls db d batch).2) := rfl

/-! ## State equations for fresh-domain and rollover batches -/

theorem insertDomainUrls_fresh {D U : Type _} [DecidableEq D] [DecidableEq U] (db : CrawlDb D U)
    (d : D) (batch : List (UrlToInsert U))
    (hst : lookupKV db.domain_state d = none)
    (hsh : lookupKV db.urls (d, 0) = none) :
    insertDomainUrls db d batch =
      (⟨insertKV (insertKV db.domain_state d ⟨0, DomainStatus.pending, 0⟩) d
          (insertUrlsLoop [] ⟨0, DomainStatus.pending, 0⟩ batch).2,
        insertKV db.urls (d, 0) (insertUrlsLoop [] ⟨0, DomainStatus.pending, 0⟩ batch).1,
        db.redirects⟩,
       [WriteEvent.domainWrite d, WriteEvent.domainWrite d, WriteEvent.shardWrite d 0]) := by
  rw [insertDomainUrls_eq_none_branch db d batch hst, insertDomainUrlsCore_eq]
  dsimp only
  rw [hsh]
  simp only [Option.getD_none, List.length_nil]
  rw [if_neg (show ¬ (URLS_PER_SHARD ≤ 0) by decide)]
  rfl

theorem insertDomainUrls_advance {D U : Type _} [DecidableEq D] [DecidableEq U]
    (db : CrawlDb D U) (d : D) (batch : List (UrlToInsert U)) (st : DomainState)
    (MA : List (U × UrlState))
    (hst : lookupKV db.domain_state d = some st)
    (hsh : lookupKV db.urls (d, st.max_shard_id) = some MA)
    (hfull : URLS_PER_SHARD ≤ MA.length) :
    insertDomainUrls db d batch =
      (⟨insertKV db.domain_state d
          (insertUrlsLoop [] { st with max_shard_id := st.max_shard_id + 1 } batch).2,
        insertKV db.urls (d, st.max_shard_id + 1)
          (insertUrlsLoop [] { st with max_shard_id := st.max_shard_id + 1 } batch).1,
        db.redirects⟩,
       [WriteEvent.domainWrite d, WriteEvent.shardWrite d (st.max_shard_id + 1)]) := by
  rw [insertDomainUrls_eq_some_branch db d batch st hst, insertDomainUrlsCore_eq]
  rw [hsh]
  rw [if_pos (by simpa using hfull)]
  rfl

theorem insert_urls_one_batch {D U : Type _} [DecidableEq D] [DecidableEq U] (domainOf : U → D)
    (src d : D) (u0 : U) (us : List U) (hdom : ∀ u ∈ u0 :: us, domainOf u = d) :
    insert_urls domainOf (emptyCrawlDb D U) [⟨src, u0 :: us, []⟩] =
      (⟨[(d, (insertUrlsLoop [] ⟨0, DomainStatus.pending, 0⟩
            ((u0 :: us).map fun u => ⟨u, decide (src ≠ d)⟩)).2)],
        [((d, 0), (insertUrlsLoop [] ⟨0, DomainStatus.pending, 0⟩
            ((u0 :: us).map fun u => ⟨u, decide (src ≠ d)⟩)).1)],
        []⟩,
       [WriteEvent.domainWrite d, WriteEvent.domainWrite d, WriteEvent.shardWrite d 0]) := by
  have hnr : ∀ r ∈ [(⟨src, u0 :: us, []⟩ : JobResponse D U)], r.url_responses = [] := by
    intro r hr
    simp only [List.mem_singleton] at hr
    subst hr
    rfl
  rw [insert_urls_no_redirects domainOf _ _ hnr]
  rw [groupDiscovered_const domainOf d ⟨src, u0 :: us, []⟩ [] u0 us rfl (by
    intro q hq
    simp only [List.mem_singleton] at hq
    subst hq
    exact hdom)]
  simp only [List.flatMap_cons, List.flatMap_nil, List.append_nil]
  rw [insertGroupsFold_single]
  rw [insertDomainUrls_fresh (emptyCrawlDb D U) d _ rfl rfl]
  simp [insertKV, emptyCrawlDb]

/-! ## Scenario derivations -/

theorem insert_urls_one_batch_ne {D U : Type _} [DecidableEq D] [DecidableEq U]
    (domainOf : U → D) (src d : D) (urls : List U) (hne : urls ≠ [])
    (hdom : ∀ u ∈ urls, domainOf u = d) :
    insert_urls domainOf (emptyCrawlDb D U) [⟨src, urls, []⟩] =
      (⟨[(d, (insertUrlsLoop [] ⟨0, DomainStatus.pending, 0⟩
            (urls.map fun u => ⟨u, decide (src ≠ d)⟩)).2)],
        [((d, 0), (insertUrlsLoop [] ⟨0, DomainStatus.pending, 0⟩
            (urls.map fun u => ⟨u, decide (src ≠ d)⟩)).1)],
        []⟩,
       [WriteEvent.domainWrite d, WriteEvent.domainWrite d, WriteEvent.shardWrite d 0]) := by
  obtain ⟨u0, us, rfl⟩ := List.exists_cons_of_ne_nil hne
  exact insert_urls_one_batch domainOf src d u0 us hdom


/-! ## Batch scenario facts -/

theorem batch_map_url {U : Type _} (urls : List U) (b : Bool) :
    (urls.map fun u => (⟨u, b⟩ : UrlToInsert U)).map UrlToInsert.url = urls := by
  rw [List.map_map]
  exact List.map_id _

/-- A single batch of fresh distinct urls on one domain, from an empty store:
the resulting state explicitly. -/
theorem one_batch_facts {D U : Type _} [DecidableEq D] [DecidableEq U] (domainOf : U → D)
    (src d : D) (urls : List U) (hne : urls ≠ []) (hnd : urls.Nodup)
    (hdom : ∀ u ∈ urls, domainOf u = d) :
    ∃ wA MA,
      (insert_urls domainOf (emptyCrawlDb D U) [⟨src, urls, []⟩]).1 =
        ⟨[(d, ⟨wA, DomainStatus.pending, 0⟩)], [((d, 0), MA)], []⟩ ∧
      MA.length = urls.length ∧
      ∀ u ∈ urls, lookupKV MA u =
        some ⟨if decide (src ≠ d) = true then 1 else 0, UrlStatus.pending⟩ := by
  have hfull := insert_urls_one_batch_ne domainOf src d urls hne hdom
  have hndb : ((urls.map fun u => (⟨u, decide (src ≠ d)⟩ : UrlToInsert U)).map
      UrlToInsert.url).Nodup := by
    rw [batch_map_url]
    exact hnd
  have hfresh : ∀ x ∈ urls.map fun u => (⟨u, decide (src ≠ d)⟩ : UrlToInsert U),
      lookupKV ([] : List (U × UrlState)) x.url = none := fun x _ => rfl
  obtain ⟨wA, _, hshape⟩ := insertUrlsLoop_ds_shape
    (urls.map fun u => (⟨u, decide (src ≠ d)⟩ : UrlToInsert U)) []
    ⟨0, DomainStatus.pending, 0⟩
  refine ⟨wA, (insertUrlsLoop [] ⟨0, DomainStatus.pending, 0⟩
    (urls.map fun u => (⟨u, decide (src ≠ d)⟩ : UrlToInsert U))).1, ?_, ?_, ?_⟩
  · rw [hfull]
    dsimp only
    rw [hshape]
  · rw [insertUrlsLoop_length _ _ _ hndb hfresh]
    simp
  · intro u hu
    have hmem : (⟨u, decide (src ≠ d)⟩ : UrlToInsert U) ∈
        urls.map fun v => (⟨v, decide (src ≠ d)⟩ : UrlToInsert U) :=
      List.mem_map.mpr ⟨u, hu, rfl⟩
    have hlk := insertUrlsLoop_fresh_lookup
      (urls.map fun v => (⟨v, decide (src ≠ d)⟩ : UrlToInsert U)) []
      ⟨0, DomainStatus.pending, 0⟩ hndb hfresh _ hmem
    simpa using hlk

/-- Two batches of fresh distinct urls on one domain from an empty store,
the first filling shard 0 to `URLS_PER_SHARD` and the second triggering the
rollover into shard 1: the resulting state explicitly. -/
theorem two_batch_facts {D U : Type _} [DecidableEq D] [DecidableEq U] (domainOf : U → D)
    (src1 src2 d : D) (urls1 urls2 : List U)
    (hne1 : urls1 ≠ []) (hne2 : urls2 ≠ [])
    (hnd1 : urls1.Nodup) (hnd2 : urls2.Nodup)
    (hdom1 : ∀ u ∈ urls1, domainOf u = d) (hdom2 : ∀ u ∈ urls2, domainOf u = d)
    (hlen : URLS_PER_SHARD ≤ urls1.length) :
    ∃ wB MA MB,
      (insert_urls domainOf
          (insert_urls domainOf (emptyCrawlDb D U) [⟨src1, urls1, []⟩]).1
          [⟨src2, urls2, []⟩]).1 =
        ⟨[(d, ⟨wB, DomainStatus.pending, 1⟩)], [((d, 0), MA), ((d, 1), MB)], []⟩ ∧
      MA.length = urls1.length ∧ MB.length = urls2.length ∧
      (∀ u ∈ urls1, lookupKV MA u =
        some ⟨if decide (src1 ≠ d) = true then 1 else 0, UrlStatus.pending⟩) ∧
      (∀ u ∈ urls2, lookupKV MB u =
        some ⟨if decide (src2 ≠ d) = true then 1 else 0, UrlStatus.pending⟩) := by
  obtain ⟨wA, MA, hdb1, hlenA, hlkA⟩ := one_batch_facts domainOf src1 d urls1 hne1 hnd1 hdom1
  obtain ⟨v0, vs, rfl⟩ := List.exists_cons_of_ne_nil hne2
  have hnr2 : ∀ r ∈ [(⟨src2, v0 :: vs, []⟩ : JobResponse D U)], r.url_responses = [] := by
    intro r hr
    simp only [List.mem_singleton] at hr
    subst hr
    rfl
  have hst : lookupKV ([(d, (⟨wA, DomainStatus.pending, 0⟩ : DomainState))]) d =
      some ⟨wA, DomainStatus.pending, 0⟩ := by simp [lookupKV]
  have hsh : lookupKV ([((d, 0), MA)] : List ((D × ℕ) × List (U × UrlState)))
      (d, (⟨wA, DomainStatus.pending, 0⟩ : DomainState).max_shard_id) = some MA := by
    simp [lookupKV]
  have hadv := insertDomainUrls_advance
    (⟨[(d, ⟨wA, DomainStatus.pending, 0⟩)], [((d, 0), MA)], []⟩ : CrawlDb D U) d
    ((v0 :: vs).map fun u => ⟨u, decide (src2 ≠ d)⟩)
    ⟨wA, DomainStatus.pending, 0⟩ MA hst hsh (by rw [hlenA]; exact hlen)
  obtain ⟨wB, _, hshapeB⟩ := insertUrlsLoop_ds_shape
    ((v0 :: vs).map fun u => (⟨u, decide (src2 ≠ d)⟩ : UrlToInsert U)) []
    { (⟨wA, DomainStatus.pending, 0⟩ : DomainState) with
        max_shard_id := (⟨wA, DomainStatus.pending, 0⟩ : DomainState).max_shard_id + 1 }
  have hndb2 : (((v0 :: vs).map fun u => (⟨u, decide (src2 ≠ d)⟩ : UrlToInsert U)).map
      UrlToInsert.url).Nodup := by
    rw [batch_map_url]
    exact hnd2
  have hfresh2 : ∀ x ∈ (v0 :: vs).map fun u => (⟨u, decide (src2 ≠ d)⟩ : UrlToInsert U),
      lookupKV ([] : List (U × UrlState)) x.url = none := fun x _ => rfl
  refine ⟨wB, MA, (insertUrlsLoop []
      { (⟨wA, DomainStatus.pending, 0⟩ : DomainState) with
          max_shard_id := (⟨wA, DomainStatus.pending, 0⟩ : DomainState).max_shard_id + 1 }
      ((v0 :: vs).map fun u => (⟨u, decide (src2 ≠ d)⟩ : UrlToInsert U))).1,
    ?_, hlenA, ?_, hlkA, ?_⟩
  · rw [insert_urls_no_redirects domainOf _ _ hnr2, hdb1]
    rw [groupDiscovered_const domainOf d ⟨src2, v0 :: vs, []⟩ [] v0 vs rfl (by
      intro q hq
      simp only [List.mem_singleton] at hq
      subst hq
      exact hdom2)]
    simp only [List.flatMap_cons, List.flatMap_nil, List.append_nil]
    rw [insertGroupsFold_single]
    dsimp only
    rw [hadv]
    dsimp only
    rw [hshapeB]
    simp [insertKV]
  · rw [insertUrlsLoop_length _ _ _ hndb2 hfresh2]
    simp
  · intro u hu
    have hmem : (⟨u, decide (src2 ≠ d)⟩ : UrlToInsert U) ∈
        (v0 :: vs).map fun v => (⟨v, decide (src2 ≠ d)⟩ : UrlToInsert U) :=
      List.mem_map.mpr ⟨u, hu, rfl⟩
    have hlk := insertUrlsLoop_fresh_lookup
      ((v0 :: vs).map fun v => (⟨v, decide (src2 ≠ d)⟩ : UrlToInsert U)) []
      { (⟨wA, DomainStatus.pending, 0⟩ : DomainState) with
          max_shard_id := (⟨wA, DomainStatus.pending, 0⟩ : DomainState).max_shard_id + 1 }
      hndb2 hfresh2 _ hmem
    simpa using hlk

/-! ## Claim C2: shard capacity -/

/-- C2 fails as stated: the overflow check of `insert_urls` runs once per
batch (before the url loop), so a single batch of `URLS_PER_SHARD + 1`
distinct urls for one domain leaves shard 0 holding `URLS_PER_SHARD + 1`
urls, exceeding the claimed bound. -/
theorem C2_counterexample :
    ((lookupKV (insert_urls constDomain (emptyCrawlDb ℕ ℕ)
        [⟨1, List.range (URLS_PER_SHARD + 1), []⟩]).1.urls (0, 0)).getD []).length =
      URLS_PER_SHARD + 1 ∧
    ¬ (URLS_PER_SHARD + 1 ≤ URLS_PER_SHARD) := by
  obtain ⟨wA, MA, hdb, hlen, _⟩ := one_batch_facts constDomain 1 0
    (List.range (URLS_PER_SHARD + 1))
    (List.ne_nil_of_length_pos (by rw [List.length_range]; decide))
    (List.nodup_range _) (fun u _ => rfl)
  refine ⟨?_, by decide⟩
  rw [hdb]
  dsimp only
  rw [show lookupKV ([((0, 0), MA)] : List ((ℕ × ℕ) × List (ℕ × UrlState))) (0, 0) = some MA
    from by simp [lookupKV]]
  rw [Option.getD_some, hlen, List.length_range]

/-- C2 amended: a shard that already holds `URLS_PER_SHARD` urls accepts no
further urls — the next `insert_urls` batch advances `max_shard_id` and goes
into a fresh shard; in particular, after a batch of `URLS_PER_SHARD`
distinct urls and a second batch of `m ≥ 1` further distinct urls on the
same domain, `max_shard_id = 1`, shard 0 holds exactly `URLS_PER_SHARD`
urls and shard 1 holds the `m` new urls. (A single batch may exceed
`URLS_PER_SHARD` in one shard, as the counterexample shows.) -/
theorem C2_shard_rollover_amended {D U : Type _} [DecidableEq D] [DecidableEq U]
    (domainOf : U → D) (src1 src2 d : D) (urls1 urls2 : List U)
    (hne1 : urls1 ≠ []) (hne2 : urls2 ≠ [])
    (hnd1 : urls1.Nodup) (hnd2 : urls2.Nodup)
    (hdom1 : ∀ u ∈ urls1, domainOf u = d) (hdom2 : ∀ u ∈ urls2, domainOf u = d)
    (hlen : urls1.length = URLS_PER_SHARD) :
    ∃ st sh0 sh1,
      lookupKV ((insert_urls domainOf
          (insert_urls domainOf (emptyCrawlDb D U) [⟨src1, urls1, []⟩]).1
          [⟨src2, urls2, []⟩]).1).domain_state d = some st ∧
      st.max_shard_id = 1 ∧
      lookupKV ((insert_urls domainOf
          (insert_urls domainOf (emptyCrawlDb D U) [⟨src1, urls1, []⟩]).1
          [⟨src2, urls2, []⟩]).1).urls (d, 0) = some sh0 ∧
      sh0.length = URLS_PER_SHARD ∧
      lookupKV ((insert_urls domainOf
          (insert_urls domainOf (emptyCrawlDb D U) [⟨src1, urls1, []⟩]).1
          [⟨src2, urls2, []⟩]).1).urls (d, 1) = some sh1 ∧
      sh1.length = urls2.length := by
  obtain ⟨wB, MA, MB, hdb2, hMA, hMB, _, _⟩ := two_batch_facts domainOf src1 src2 d urls1 urls2
    hne1 hne2 hnd1 hnd2 hdom1 hdom2 (le_of_eq hlen.symm)
  refine ⟨⟨wB, DomainStatus.pending, 1⟩, MA, MB, ?_, rfl, ?_, ?_, ?_, hMB⟩
  · rw [hdb2]
    dsimp only
    simp [lookupKV]
  · rw [hdb2]
    dsimp only
    simp [lookupKV]
  · rw [hMA, hlen]
  · rw [hdb2]
    dsimp only
    simp [lookupKV]

theorem C2_shard_rollover_amended_witness :
    ((List.range URLS_PER_SHARD ≠ []) ∧ (([5000] : List ℕ) ≠ []) ∧
      (List.range URLS_PER_SHARD).Nodup ∧ ([5000] : List ℕ).Nodup ∧
      (∀ u ∈ List.range URLS_PER_SHARD, constDomain u = 0) ∧
      (∀ u ∈ ([5000] : List ℕ), constDomain u = 0) ∧
      (List.range URLS_PER_SHARD).length = URLS_PER_SHARD) ∧
    (∃ st sh0 sh1,
      lookupKV ((insert_urls constDomain
          (insert_urls constDomain (emptyCrawlDb ℕ ℕ)
            [⟨1, List.range URLS_PER_SHARD, []⟩]).1
          [⟨0, [5000], []⟩]).1).domain_state 0 = some st ∧
      st.max_shard_id = 1 ∧
      lookupKV ((insert_urls constDomain
          (insert_urls constDomain (emptyCrawlDb ℕ ℕ)
            [⟨1, List.range URLS_PER_SHARD, []⟩]).1
          [⟨0, [5000], []⟩]).1).urls (0, 0) = some sh0 ∧
      sh0.length = URLS_PER_SHARD ∧
      lookupKV ((insert_urls constDomain
          (insert_urls constDomain (emptyCrawlDb ℕ ℕ)
            [⟨1, List.range URLS_PER_SHARD, []⟩]).1
          [⟨0, [5000], []⟩]).1).urls (0, 1) = some sh1 ∧
      sh1.length = ([5000] : List ℕ).length) :=
  ⟨⟨List.ne_nil_of_length_pos (by rw [List.length_range]; decide), by decide,
    List.nodup_range _, by decide, fun u _ => rfl, fun u _ => rfl, List.length_range _⟩,
   C2_shard_rollover_amended constDomain 1 0 0 (List.range URLS_PER_SHARD) [5000]
     (List.ne_nil_of_length_pos (by rw [List.length_range]; decide)) (by decide)
     (List.nodup_range _) (by decide) (fun u _ => rfl) (fun u _ => rfl)
     (List.length_range _)⟩

/-! ## Claim C7: shard-key bound invariant -/

/-- C7 fails as stated: `insert_seed_urls` overwrites the domain state with
`max_shard_id = 0` while leaving shard key `(d, 1)` in place, so after a
rollover a seed breaks `s ≤ max_shard_id`. -/
theorem C7_counterexample :
    lookupKV (insert_seed_urls constDomain
        ((insert_urls constDomain
          (insert_urls constDomain (emptyCrawlDb ℕ ℕ)
            [⟨1, List.range URLS_PER_SHARD, []⟩]).1
          [⟨0, [5000], []⟩]).1) [5001]).domain_state 0 =
      some ⟨0, DomainStatus.pending, 0⟩ ∧
    (lookupKV (insert_seed_urls constDomain
        ((insert_urls constDomain
          (insert_urls constDomain (emptyCrawlDb ℕ ℕ)
            [⟨1, List.range URLS_PER_SHARD, []⟩]).1
          [⟨0, [5000], []⟩]).1) [5001]).urls (0, 1)).isSome = true ∧
    ¬ ((1 : ℕ) ≤ 0) := by
  obtain ⟨wB, MA, MB, hdb2, _, _, _, _⟩ := two_batch_facts constDomain 1 0 0
    (List.range URLS_PER_SHARD) [5000]
    (List.ne_nil_of_length_pos (by rw [List.length_range]; decide)) (by decide)
    (List.nodup_range _) (by decide) (fun u _ => rfl) (fun u _ => rfl)
    (le_of_eq (List.length_range _).symm)
  rw [hdb2]
  refine ⟨?_, ?_, by decide⟩
  · simp [insert_seed_urls, insertSeedUrl, constDomain, insertKV, lookupKV]
  · simp only [insert_seed_urls, List.foldl_cons, List.foldl_nil]
    simp [insertSeedUrl, constDomain, insertKV, lookupKV]
    split <;> rfl

theorem insertDomainUrlsFinish_shardInv {D U : Type _} [DecidableEq D] [DecidableEq U]
    (db : CrawlDb D U) (domain : D) (urls : List (UrlToInsert U)) (ds : DomainState)
    (us : List (U × UrlState)) (sid : ℕ) (tr : List (WriteEvent D))
    (hinv : ShardInv db) (hsid : sid ≤ ds.max_shard_id)
    (hold : ∀ s shard, lookupKV db.urls (domain, s) = some shard → s ≤ ds.max_shard_id) :
    ShardInv (insertDomainUrlsFinish db domain urls ds us sid tr).1 := by
  intro x s shard hl
  obtain ⟨w, _, hshape⟩ := insertUrlsLoop_ds_shape urls us ds
  rw [insertDomainUrlsFinish_fst] at hl ⊢
  dsimp only at hl ⊢
  by_cases hk : ((x, s) : D × ℕ) = (domain, sid)
  · rw [hk, lookupKV_insertKV_self] at hl
    obtain ⟨hx, hs⟩ : x = domain ∧ s = sid := by
      rw [Prod.mk.injEq] at hk
      exact hk
    subst hx
    subst hs
    refine ⟨(insertUrlsLoop us ds urls).2, lookupKV_insertKV_self _ _ _, ?_⟩
    rw [hshape]
    exact hsid
  · rw [lookupKV_insertKV_ne _ _ _ _ hk] at hl
    by_cases hx : x = domain
    · subst hx
      refine ⟨(insertUrlsLoop us ds urls).2, lookupKV_insertKV_self _ _ _, ?_⟩
      rw [hshape]
      exact hold s shard hl
    · obtain ⟨stx, hlx, hsx⟩ := hinv x s shard hl
      refine ⟨stx, ?_, hsx⟩
      rw [lookupKV_insertKV_ne _ _ _ _ hx]
      exact hlx

theorem insertDomainUrlsCore_shardInv {D U : Type _} [DecidableEq D] [DecidableEq U]
    (db : CrawlDb D U) (domain : D) (urls : List (UrlToInsert U)) (st : DomainState)
    (tr : List (WriteEvent D))
    (hst : lookupKV db.domain_state domain = some st) (hinv : ShardInv db) :
    ShardInv (insertDomainUrlsCore db domain urls st tr).1 := by
  have hold : ∀ s shard, lookupKV db.urls (domain, s) = some shard → s ≤ st.max_shard_id := by
    intro s shard hl
    obtain ⟨st2, hl2, hs2⟩ := hinv domain s shard hl
    rw [hst] at hl2
    injection hl2 with hl2
    rw [hl2]
    exact hs2
  rw [insertDomainUrlsCore_eq]
  split
  · exact insertDomainUrlsFinish_shardInv db domain urls _ [] _ tr hinv (le_refl _)
      (fun s shard hl => le_trans (hold s shard hl) (Nat.le_succ _))
  · exact insertDomainUrlsFinish_shardInv db domain urls st _ _ tr hinv (le_refl _) hold

theorem insertDomainUrls_shardInv {D U : Type _} [DecidableEq D] [DecidableEq U]
    (db : CrawlDb D U) (domain : D) (urls : List (UrlToInsert U)) (hinv : ShardInv db) :
    ShardInv (insertDomainUrls db domain urls).1 := by
  rcases hst : lookupKV db.domain_state domain with _ | st
  · rw [insertDomainUrls_eq_none_branch db domain urls hst]
    refine insertDomainUrlsCore_shardInv _ domain urls _ _ (lookupKV_insertKV_self _ _ _) ?_
    intro x s shard hl
    obtain ⟨stx, hlx, hsx⟩ := hinv x s shard hl
    by_cases hx : x = domain
    · subst hx
      rw [hst] at hlx
      cases hlx
    · refine ⟨stx, ?_, hsx⟩
      show lookupKV (insertKV db.domain_state domain ⟨0, DomainStatus.pending, 0⟩) x = some stx
      rw [lookupKV_insertKV_ne _ _ _ _ hx]
      exact hlx
  · rw [insertDomainUrls_eq_some_branch db domain urls st hst]
    exact insertDomainUrlsCore_shardInv db domain urls st [] hst hinv

theorem insertGroupsFold_shardInv {D U : Type _} [DecidableEq D] [DecidableEq U]
    (groups : List (D × List (UrlToInsert U))) :
    ∀ (acc : CrawlDb D U × List (WriteEvent D)), ShardInv acc.1 →
      ShardInv (insertGroupsFold groups acc).1 := by
  induction groups with
  | nil => exact fun acc h => h
  | cons g rest ih =>
      intro acc h
      simp only [insertGroupsFold]
      exact ih _ (insertDomainUrls_shardInv acc.1 g.1 g.2 h)

theorem insert_urls_shardInv {D U : Type _} [DecidableEq D] [DecidableEq U] (domainOf : U → D)
    (db : CrawlDb D U) (responses : List (JobResponse D U)) (hinv : ShardInv db) :
    ShardInv (insert_urls domainOf db responses).1 := by
  unfold insert_urls
  exact insertGroupsFold_shardInv _ _ hinv

theorem insertSeedUrl_shardInv {D U : Type _} [DecidableEq D] [DecidableEq U] (domainOf : U → D)
    (db : CrawlDb D U) (url : U) (hinv : ShardInv db)
    (hkeys : ∀ s, (lookupKV db.urls (domainOf url, s)).isSome → s = 0) :
    ShardInv (insertSeedUrl domainOf db url) := by
  intro x s shard hl
  unfold insertSeedUrl at hl ⊢
  dsimp only at hl ⊢
  by_cases hk : ((x, s) : D × ℕ) = (domainOf url, 0)
  · obtain ⟨hx, hs⟩ : x = domainOf url ∧ s = 0 := by
      rw [Prod.mk.injEq] at hk
      exact hk
    subst hx
    subst hs
    exact ⟨⟨0, DomainStatus.pending, 0⟩, lookupKV_insertKV_self _ _ _, le_refl 0⟩
  · rw [lookupKV_insertKV_ne _ _ _ _ hk] at hl
    by_cases hx : x = domainOf url
    · have hs0 : s = 0 := hkeys s (by rw [← hx, hl]; rfl)
      exact absurd (show ((x, s) : D × ℕ) = (domainOf url, 0) by rw [hx, hs0]) hk
    · obtain ⟨stx, hlx, hsx⟩ := hinv x s shard hl
      refine ⟨stx, ?_, hsx⟩
      rw [lookupKV_insertKV_ne _ _ _ _ hx]
      exact hlx

theorem insert_seed_urls_shardInv {D U : Type _} [DecidableEq D] [DecidableEq U]
    (domainOf : U → D) (seeds : List U) :
    ∀ (db : CrawlDb D U), ShardInv db →
      (∀ u ∈ seeds, ∀ s, (lookupKV db.urls (domainOf u, s)).isSome → s = 0) →
      ShardInv (insert_seed_urls domainOf db seeds) := by
  induction seeds with
  | nil => exact fun db h _ => h
  | cons u rest ih =>
      intro db h hkeys
      simp only [insert_seed_urls, List.foldl_cons]
      refine ih (insertSeedUrl domainOf db u)
        (insertSeedUrl_shardInv domainOf db u h (hkeys u (List.mem_cons_self _ _))) ?_
      intro v hv s hs
      by_cases hkey : ((domainOf v, s) : D × ℕ) = (domainOf u, 0)
      · exact congrArg Prod.snd hkey
      · have hpres : lookupKV (insertSeedUrl domainOf db u).urls (domainOf v, s) =
            lookupKV db.urls (domainOf v, s) := by
          unfold insertSeedUrl
          dsimp only
          exact lookupKV_insertKV_ne _ _ _ _ hkey
        rw [hpres] at hs
        exact hkeys v (List.mem_cons_of_mem _ hv) s hs

/-- C7 amended: the bound `s ≤ DomainStore[d].max_shard_id` for every
stored shard key `(d, s)` is preserved by `insert_urls`; `insert_seed_urls`
preserves it only when every seeded domain has no stored shard beyond
shard 0 (it overwrites the domain state with `max_shard_id = 0`, so — as
the counterexample shows — a seed on a rolled-over domain breaks the
bound). -/
theorem C7_shard_bound_amended {D U : Type _} [DecidableEq D] [DecidableEq U]
    (domainOf : U → D) (db : CrawlDb D U) (hinv : ShardInv db) :
    (∀ responses, ShardInv (insert_urls domainOf db responses).1) ∧
    (∀ seeds, (∀ u ∈ seeds, ∀ s, (lookupKV db.urls (domainOf u, s)).isSome → s = 0) →
      ShardInv (insert_seed_urls domainOf db seeds)) :=
  ⟨fun responses => insert_urls_shardInv domainOf db responses hinv,
   fun seeds hkeys => insert_seed_urls_shardInv domainOf seeds db hinv hkeys⟩

theorem C7_shard_bound_amended_witness :
    ShardInv (emptyCrawlDb ℕ ℕ) ∧
    ((∀ responses, ShardInv (insert_urls constDomain (emptyCrawlDb ℕ ℕ) responses).1) ∧
     (∀ seeds, (∀ u ∈ seeds, ∀ s,
        (lookupKV (emptyCrawlDb ℕ ℕ).urls (constDomain u, s)).isSome → s = 0) →
      ShardInv (insert_seed_urls constDomain (emptyCrawlDb ℕ ℕ) seeds))) :=
  ⟨fun _ _ _ h => Option.noConfusion h,
   C7_shard_bound_amended constDomain (emptyCrawlDb ℕ ℕ)
     (fun _ _ _ h => Option.noConfusion h)⟩

/-! ## Claim C6: cross-domain weight -/

theorem map_responses_flatMap {D U : Type _} [DecidableEq D] (d : D) (u : U) (srcs : List D) :
    (srcs.map fun s => (⟨s, [u], []⟩ : JobResponse D U)).flatMap
      (fun q => q.discovered_urls.map fun v => (⟨v, decide (q.domain ≠ d)⟩ : UrlToInsert U)) =
    srcs.map fun s => ⟨u, decide (s ≠ d)⟩ := by
  induction srcs with
  | nil => rfl
  | cons s ss ih =>
      simp only [List.map_cons, List.flatMap_cons, ih]
      rfl

/-- C6: in `insert_urls`, a discovered url's stored weight is incremented
by exactly `1.0` when the link's originating domain differs from the url's
target domain and is unchanged when they coincide; and after `N` distinct
source domains (all different from the target domain) each link once to
the same fresh url, its stored weight is `N`. -/
theorem C6_cross_domain_weight {D U : Type _} [DecidableEq D] [DecidableEq U] :
    (∀ (domainOf : U → D) (db : CrawlDb D U) (src : D) (u : U) (st : DomainState)
        (us : List (U × UrlState)) (w : ℤ) (stat : UrlStatus),
      lookupKV db.domain_state (domainOf u) = some st →
      lookupKV db.urls (domainOf u, st.max_shard_id) = some us →
      us.length < URLS_PER_SHARD →
      lookupKV us u = some ⟨w, stat⟩ →
      ∃ us1, lookupKV ((insert_urls domainOf db [⟨src, [u], []⟩]).1).urls
          (domainOf u, st.max_shard_id) = some us1 ∧
        lookupKV us1 u = some ⟨if src = domainOf u then w else w + 1, stat⟩) ∧
    (∀ (domainOf : U → D) (srcs : List D) (u : U),
      srcs ≠ [] → srcs.Nodup → (∀ s ∈ srcs, s ≠ domainOf u) →
      ∃ us1, lookupKV ((insert_urls domainOf (emptyCrawlDb D U)
          (srcs.map fun s => ⟨s, [u], []⟩)).1).urls (domainOf u, 0) = some us1 ∧
        lookupKV us1 u = some ⟨(srcs.length : ℤ), UrlStatus.pending⟩) := by
  constructor
  · intro domainOf db src u st us w stat hst hsh hlt hu
    rw [insert_urls_no_redirects domainOf db [⟨src, [u], []⟩] (by
      intro r hr
      simp only [List.mem_singleton] at hr
      subst hr
      rfl)]
    rw [groupDiscovered_const domainOf (domainOf u) ⟨src, [u], []⟩ [] u [] rfl (by
      intro q hq
      simp only [List.mem_singleton] at hq
      subst hq
      intro v hv
      simp only [List.mem_singleton] at hv
      subst hv
      rfl)]
    simp only [List.flatMap_cons, List.flatMap_nil, List.append_nil, List.map_cons, List.map_nil]
    rw [insertGroupsFold_single]
    dsimp only
    rw [insertDomainUrls_eq_some_branch db (domainOf u) _ st hst, insertDomainUrlsCore_eq]
    rw [hsh]
    rw [if_neg (by simpa using not_le.mpr hlt)]
    refine ⟨(insertUrlsLoop ((some us).getD []) st
      [⟨u, decide (src ≠ domainOf u)⟩]).1, ?_, ?_⟩
    · exact insertDomainUrlsFinish_self_shard db (domainOf u) _ st _ _ []
    · simp only [Option.getD_some, insertUrlsLoop]
      rw [lookupKV_insertKV_self]
      have hnew : newUrlState us ⟨u, decide (src ≠ domainOf u)⟩ =
          ⟨if src = domainOf u then w else w + 1, stat⟩ := by
        by_cases hsrc : src = domainOf u
        · simp [newUrlState, hu, hsrc]
        · simp [newUrlState, hu, hsrc]
      rw [hnew]
  · intro domainOf srcs u hne hnd hsrc
    obtain ⟨s0, ss, rfl⟩ := List.exists_cons_of_ne_nil hne
    rw [insert_urls_no_redirects domainOf (emptyCrawlDb D U) _ (by
      intro r hr
      obtain ⟨s, _, rfl⟩ := List.mem_map.mp hr
      rfl)]
    rw [List.map_cons]
    rw [groupDiscovered_const domainOf (domainOf u) ⟨s0, [u], []⟩ (ss.map fun s => ⟨s, [u], []⟩)
      u [] rfl (by
        intro q hq
        rcases List.mem_cons.mp hq with hq | hq
        · subst hq
          intro v hv
          simp only [List.mem_singleton] at hv
          subst hv
          rfl
        · obtain ⟨s, _, rfl⟩ := List.mem_map.mp hq
          intro v hv
          simp only [List.mem_singleton] at hv
          subst hv
          rfl)]
    rw [← List.map_cons (fun s => (⟨s, [u], []⟩ : JobResponse D U)) s0 ss]
    rw [map_responses_flatMap (domainOf u) u (s0 :: ss)]
    have hbatch : ((s0 :: ss).map fun s => (⟨u, decide (s ≠ domainOf u)⟩ : UrlToInsert U)) =
        List.replicate (s0 :: ss).length ⟨u, true⟩ := by
      rw [List.eq_replicate_iff]
      refine ⟨by simp, ?_⟩
      intro b hb
      obtain ⟨s, hs, rfl⟩ := List.mem_map.mp hb
      simp [hsrc s hs]
    rw [hbatch]
    rw [insertGroupsFold_single]
    dsimp only
    rw [insertDomainUrls_fresh (emptyCrawlDb D U) (domainOf u) _ rfl rfl]
    dsimp only
    refine ⟨(insertUrlsLoop [] ⟨0, DomainStatus.pending, 0⟩
      (List.replicate (s0 :: ss).length ⟨u, true⟩)).1, ?_, ?_⟩
    · exact lookupKV_insertKV_self _ _ _
    · rw [insertUrlsLoop_replicate_none (s0 :: ss).length (by simp) [] _ u rfl]

theorem C6_cross_domain_weight_witness :
    (lookupKV ([(0, (⟨0, DomainStatus.pending, 0⟩ : DomainState))]) (divDomain 1) =
        some ⟨0, DomainStatus.pending, 0⟩ ∧
      lookupKV ([((0, 0), [(1, (⟨2, UrlStatus.pending⟩ : UrlState))])]) (divDomain 1, 0) =
        some [(1, ⟨2, UrlStatus.pending⟩)] ∧
      ([(1, (⟨2, UrlStatus.pending⟩ : UrlState))]).length < URLS_PER_SHARD ∧
      lookupKV [(1, (⟨2, UrlStatus.pending⟩ : UrlState))] 1 =
        some ⟨2, UrlStatus.pending⟩ ∧
      (∃ us1, lookupKV ((insert_urls divDomain
          ⟨[(0, ⟨0, DomainStatus.pending, 0⟩)], [((0, 0), [(1, ⟨2, UrlStatus.pending⟩)])], []⟩
          [⟨15, [1], []⟩]).1).urls (divDomain 1, 0) = some us1 ∧
        lookupKV us1 1 = some ⟨if 15 = divDomain 1 then 2 else 2 + 1, UrlStatus.pending⟩)) ∧
    (([10, 25] : List ℕ) ≠ [] ∧ ([10, 25] : List ℕ).Nodup ∧
      (∀ s ∈ ([10, 25] : List ℕ), s ≠ divDomain 5) ∧
      (∃ us1, lookupKV ((insert_urls divDomain (emptyCrawlDb ℕ ℕ)
          (([10, 25] : List ℕ).map fun s => ⟨s, [5], []⟩)).1).urls (divDomain 5, 0) = some us1 ∧
        lookupKV us1 5 = some ⟨(([10, 25] : List ℕ).length : ℤ), UrlStatus.pending⟩)) := by
  refine ⟨⟨by decide, by decide, by decide, by decide, ?_⟩, ⟨by decide, by decide, by decide, ?_⟩⟩
  · exact C6_cross_domain_weight.1 divDomain
      ⟨[(0, ⟨0, DomainStatus.pending, 0⟩)], [((0, 0), [(1, ⟨2, UrlStatus.pending⟩)])], []⟩
      15 1 ⟨0, DomainStatus.pending, 0⟩ [(1, ⟨2, UrlStatus.pending⟩)] 2 UrlStatus.pending
      (by decide) (by decide) (by decide) (by decide)
  · exact C6_cross_domain_weight.2 divDomain [10, 25] 5 (by decide) (by decide) (by decide)

/-! ## Claim C5: read-path validation behaviour -/

/-- C5 counterexample: on a store holding a corrupt record under key 0 (and a
valid one under key 1), `DomainStateDb::get 0` panics (the `.unwrap()` at
line 255) rather than returning `NotFound`, while `iter` silently skips the
corrupt record and yields only the valid one. -/
theorem C5_counterexample :
    DomainStateDb.get
        [((0 : ℕ), RawRecord.corrupt), (1, RawRecord.valid ⟨3, DomainStatus.pending, 0⟩)] 0 =
      GetOutcome.panicked ∧
    GetOutcome.panicked ≠ (GetOutcome.notFound : GetOutcome DomainState) ∧
    DomainStateDb.iter
        [((0 : ℕ), RawRecord.corrupt), (1, RawRecord.valid ⟨3, DomainStatus.pending, 0⟩)] =
      [(1, ⟨3, DomainStatus.pending, 0⟩)] :=
  ⟨rfl, by decide, rfl⟩

/-- C5 (amended): `iter` yields exactly the valid records (a record failing
validation is skipped silently and the iteration continues), while a point
`get` of a key holding a corrupt record panics — it neither reports
`NotFound` nor returns a value; `get` of a valid record returns it, `get` of
a missing key reports `NotFound`, and any value `get` does return came from
a valid record. -/
theorem C5_validation_amended {D : Type _} [DecidableEq D] (store : DomainStateDb D) (d : D) :
    (∀ v, (d, v) ∈ DomainStateDb.iter store ↔ (d, RawRecord.valid v) ∈ store) ∧
    (lookupKV store d = some RawRecord.corrupt →
      DomainStateDb.get store d = GetOutcome.panicked) ∧
    (∀ v, lookupKV store d = some (RawRecord.valid v) →
      DomainStateDb.get store d = GetOutcome.found v) ∧
    (lookupKV store d = none → DomainStateDb.get store d = GetOutcome.notFound) ∧
    (∀ v, DomainStateDb.get store d = GetOutcome.found v →
      lookupKV store d = some (RawRecord.valid v)) := by
  refine ⟨?_, ?_, ?_, ?_, ?_⟩
  · intro v
    simp only [DomainStateDb.iter, List.mem_filterMap]
    constructor
    · rintro ⟨⟨a, r⟩, hp, hf⟩
      cases r with
      | valid w =>
          simp only [Option.some.injEq, Prod.mk.injEq] at hf
          obtain ⟨rfl, rfl⟩ := hf
          exact hp
      | corrupt => exact Option.noConfusion hf
    · intro h
      exact ⟨(d, .valid v), h, rfl⟩
  · intro h
    unfold DomainStateDb.get
    rw [h]
  · intro v h
    unfold DomainStateDb.get
    rw [h]
  · intro h
    unfold DomainStateDb.get
    rw [h]
  · intro v h
    unfold DomainStateDb.get at h
    rcases hl : lookupKV store d with _ | r
    · rw [hl] at h
      exact GetOutcome.noConfusion h
    · rw [hl] at h
      cases r with
      | valid w =>
          simp only at h
          injection h with h1
          rw [h1]
      | corrupt =>
          simp only at h
          exact GetOutcome.noConfusion h

theorem C5_validation_amended_witness :
    DomainStateDb.get [((0 : ℕ), RawRecord.corrupt)] 0 = GetOutcome.panicked :=
  (C5_validation_amended [((0 : ℕ), RawRecord.corrupt)] 0).2.1 rfl

/-! ## Claim C9: write order of the domain-state and shard puts -/

theorem dwps_nil {D : Type _} : DomainWritePrecedesShard ([] : List (WriteEvent D)) := by
  intro d s i h
  simp at h

theorem dwps_append {D : Type _} {tr1 tr2 : List (WriteEvent D)}
    (h1 : DomainWritePrecedesShard tr1) (h2 : DomainWritePrecedesShard tr2) :
    DomainWritePrecedesShard (tr1 ++ tr2) := by
  intro d s i hi hget
  rw [List.get_eq_getElem] at hget
  by_cases hlt : i < tr1.length
  · have hg : tr1.get ⟨i, hlt⟩ = WriteEvent.shardWrite d s := by
      rw [List.get_eq_getElem]
      rw [← hget]
      exact (List.getElem_append_left hlt).symm
    have hm := h1 d s i hlt hg
    rw [List.take_append_of_le_length (le_of_lt hlt)]
    exact hm
  · push_neg at hlt
    have hi2 : i - tr1.length < tr2.length := by
      rw [List.length_append] at hi
      omega
    have hg : tr2.get ⟨i - tr1.length, hi2⟩ = WriteEvent.shardWrite d s := by
      rw [List.get_eq_getElem]
      rw [← hget]
      exact (List.getElem_append_right hlt).symm
    have hm := h2 d s (i - tr1.length) hi2 hg
    have htake : (tr1 ++ tr2).take i = tr1 ++ tr2.take (i - tr1.length) := by
      rw [List.take_append_eq_append_take]
      congr 1
      exact List.take_of_length_le hlt
    rw [htake]
    exact List.mem_append_right _ hm

theorem dwps_block1 {D : Type _} (d : D) (s : ℕ) :
    DomainWritePrecedesShard [WriteEvent.domainWrite d, WriteEvent.shardWrite d s] := by
  intro e t i hi hget
  have hi2 : i < 2 := by simpa using hi
  interval_cases i
  · simp [List.get] at hget
  · simp only [List.get] at hget
    injection hget with h1 h2
    subst h1
    simp

theorem dwps_block2 {D : Type _} (d : D) (s : ℕ) :
    DomainWritePrecedesShard
      [WriteEvent.domainWrite d, WriteEvent.domainWrite d, WriteEvent.shardWrite d s] := by
  intro e t i hi hget
  have hi2 : i < 3 := by simpa using hi
  interval_cases i
  · simp [List.get] at hget
  · simp [List.get] at hget
  · simp only [List.get] at hget
    injection hget with h1 h2
    subst h1
    simp

theorem insertDomainUrlsCore_snd {D U : Type _} [DecidableEq D] [DecidableEq U]
    (db : CrawlDb D U) (d : D) (urls : List (UrlToInsert U)) (st : DomainState)
    (tr : List (WriteEvent D)) :
    ∃ sid, (insertDomainUrlsCore db d urls st tr).2 =
      tr ++ [WriteEvent.domainWrite d, WriteEvent.shardWrite d sid] := by
  unfold insertDomainUrlsCore
  dsimp only
  by_cases hc : URLS_PER_SHARD ≤ ((lookupKV db.urls (d, st.max_shard_id)).getD []).length
  · rw [if_pos hc]
    exact ⟨_, rfl⟩
  · rw [if_neg hc]
    exact ⟨_, rfl⟩

theorem insertDomainUrls_dwps {D U : Type _} [DecidableEq D] [DecidableEq U]
    (db : CrawlDb D U) (d : D) (urls : List (UrlToInsert U)) :
    DomainWritePrecedesShard (insertDomainUrls db d urls).2 := by
  rcases hst : lookupKV db.domain_state d with _ | st
  · rw [insertDomainUrls_eq_none_branch db d urls hst]
    obtain ⟨sid, hs⟩ := insertDomainUrlsCore_snd _ d urls ⟨0, DomainStatus.pending, 0⟩
      [WriteEvent.domainWrite d]
    rw [hs]
    exact dwps_block2 d sid
  · rw [insertDomainUrls_eq_some_branch db d urls st hst]
    obtain ⟨sid, hs⟩ := insertDomainUrlsCore_snd db d urls st []
    rw [hs]
    exact dwps_block1 d sid

theorem insertGroupsFold_dwps {D U : Type _} [DecidableEq D] [DecidableEq U]
    (groups : List (D × List (UrlToInsert U))) (acc : CrawlDb D U × List (WriteEvent D))
    (h : DomainWritePrecedesShard acc.2) :
    DomainWritePrecedesShard (insertGroupsFold groups acc).2 := by
  induction groups generalizing acc with
  | nil => exact h
  | cons g rest ih =>
      simp only [insertGroupsFold]
      exact ih _ (dwps_append h (insertDomainUrls_dwps acc.1 g.1 g.2))

/-- C9 counterexample: inserting one cross-domain discovery into an empty
store produces the put trace `[domainWrite 0, domainWrite 0, shardWrite 0 0]`
— the domain state is written before the shard, so the shard-first order
stated for `insert_urls` fails on this run. -/
theorem C9_counterexample :
    scenarioTrace = [WriteEvent.domainWrite 0, WriteEvent.domainWrite 0,
      WriteEvent.shardWrite 0 0] ∧
    ¬ ShardWritePrecedesDomain scenarioTrace := by
  refine ⟨by decide, ?_⟩
  intro h
  obtain ⟨s, hs⟩ := h 0 0 (by decide) (by decide)
  rw [List.take_zero] at hs
  exact List.not_mem_nil _ hs

/-- C9 (amended): in `insert_urls` each target domain's updated `DomainState`
is written to the `DomainStore` before the updated shard is written to the
`UrlShardStore` (line 438 versus line 441); every shard write in the put
trace is preceded by a domain-state write for the same domain. -/
theorem C9_write_order_amended {D U : Type _} [DecidableEq D] [DecidableEq U]
    (domainOf : U → D) (db : CrawlDb D U) (responses : List (JobResponse D U)) :
    DomainWritePrecedesShard (insert_urls domainOf db responses).2 := by
  unfold insert_urls
  exact insertGroupsFold_dwps _ _ dwps_nil

/-! ## Claim C4: domain weight versus pending url weights -/

theorem insertGroupsFold_state_mono {D U : Type _} [DecidableEq D] [DecidableEq U]
    (groups : List (D × List (UrlToInsert U))) :
    ∀ (acc : CrawlDb D U × List (WriteEvent D)) (d : D) (st0 : DomainState),
      lookupKV acc.1.domain_state d = some st0 →
      ∃ st1, lookupKV (insertGroupsFold groups acc).1.domain_state d = some st1 ∧
        st0.weight ≤ st1.weight ∧ st0.max_shard_id ≤ st1.max_shard_id := by
  induction groups with
  | nil =>
      intro acc d st0 hst
      exact ⟨st0, hst, le_refl _, le_refl _⟩
  | cons g rest ih =>
      intro acc d st0 hst
      simp only [insertGroupsFold]
      by_cases hd : g.1 = d
      · subst hd
        obtain ⟨st1, hl, hw, hm⟩ := insertDomainUrls_state_mono acc.1 g.1 g.2 st0 hst
        obtain ⟨st2, hl2, hw2, hm2⟩ := ih
          ((insertDomainUrls acc.1 g.1 g.2).1, acc.2 ++ (insertDomainUrls acc.1 g.1 g.2).2)
          g.1 st1 hl
        exact ⟨st2, hl2, le_trans hw hw2, le_trans hm hm2⟩
      · have hpres := (insertDomainUrls_preserve acc.1 g.1 g.2).1 d (fun he => hd he.symm)
        exact ih
          ((insertDomainUrls acc.1 g.1 g.2).1, acc.2 ++ (insertDomainUrls acc.1 g.1 g.2).2)
          d st0 (by rw [hpres]; exact hst)

theorem prepareJobsGo_pick_facts {D U : Type _} [DecidableEq D] [DecidableEq U]
    (pr : ℕ → ℕ → ℤ) (pick : ℕ → ℕ) (k : ℕ) (domains : List D) :
    ∀ (j : ℕ) (db : CrawlDb D U) (jobs0 jobs : List (Job D U)) (db1 : CrawlDb D U),
      domains.Nodup →
      prepareJobsGo pr pick k j domains db jobs0 = some (jobs, db1) →
      ∀ jb ∈ jobs, jb ∈ jobs0 ∨
        ∃ i dbi db2 st0 urls1 st1,
          lookupKV dbi.domain_state jb.domain = some st0 ∧
          prepareJob (pr i) (pick i) dbi jb.domain k = some (jb, db2) ∧
          jb.urls = weighted_sample (pr i)
            (pendingUrls ((lookupKV dbi.urls
              (jb.domain, pick i % (st0.max_shard_id + 1))).getD [])) k ∧
          flipCrawling ((lookupKV dbi.urls
              (jb.domain, pick i % (st0.max_shard_id + 1))).getD []) jb.urls = some urls1 ∧
          lookupKV db2.domain_state jb.domain = some st1 ∧
          lookupKV db2.urls (jb.domain, pick i % (st0.max_shard_id + 1)) = some urls1 ∧
          lookupKV db1.domain_state jb.domain = some st1 ∧
          lookupKV db1.urls (jb.domain, pick i % (st0.max_shard_id + 1)) = some urls1 ∧
          st1.weight = maxOrZero (pendingWeights urls1) := by
  induction domains with
  | nil =>
      intro j db jobs0 jobs db1 _ hrun jb hjb
      simp only [prepareJobsGo] at hrun
      injection hrun with hrun
      rw [Prod.mk.injEq] at hrun
      exact Or.inl (hrun.1 ▸ hjb)
  | cons e rest ih =>
      intro j db jobs0 jobs db1 hnd hrun jb hjb
      simp only [List.nodup_cons] at hnd
      simp only [prepareJobsGo] at hrun
      rcases hpj : prepareJob (pr j) (pick j) db e k with _ | r
      · rw [hpj] at hrun
        cases hrun
      · rw [hpj] at hrun
        obtain ⟨jb0, db2⟩ := r
        rcases ih (j + 1) db2 (jobs0 ++ [jb0]) jobs db1 hnd.2 hrun jb hjb with hin | hfacts
        · rcases List.mem_append.mp hin with hin | hin
          · exact Or.inl hin
          · right
            have hjb0 : jb = jb0 := by simpa using hin
            subst hjb0
            obtain ⟨state, urls1, hst, hjbeq, hfl, hdb2⟩ :=
              prepareJob_eq_some (pr j) (pick j) db e k jb db2 hpj
            obtain ⟨hpd, hpu⟩ := prepareJobsGo_preserve pr pick k rest (j + 1) db2
              (jobs0 ++ [jb]) jobs db1 e hnd.1 hrun
            subst hdb2
            subst hjbeq
            refine ⟨j, db, _, state, urls1,
              { state with weight := maxOrZero (pendingWeights urls1) },
              hst, hpj, rfl, hfl, ?_, ?_, ?_, ?_, rfl⟩
            · exact lookupKV_insertKV_self _ _ _
            · exact lookupKV_insertKV_self _ _ _
            · rw [hpd]
              exact lookupKV_insertKV_self _ _ _
            · rw [hpu]
              exact lookupKV_insertKV_self _ _ _
        · exact Or.inr hfacts

/-- C4 counterexample. The `insert_urls` half: `scenarioSmall` is the state
returned by an `insert_urls` call, yet domain 0's stored weight is 0 while
its shard 0 still holds the pending url 1 of weight 1 (a preceding
`insert_seed_urls` reset the domain weight and the final intra-domain
insert never raises it): the stored weight is strictly below the maximum
pending url weight. The `prepare_jobs` half: on a rolled-over domain with
two shards whose pending urls both have weight 1, a `prepare_jobs` call
whose random draw selects shard 1 (`1 % (1 + 1) = 1`) samples that shard's
only url, flips it to `Crawling`, and recomputes the stored weight from
shard 1 alone: it stores weight 0 although shard 0 still holds a pending
url of weight 1, so at `prepare_jobs` return the stored weight differs from
the maximum over the domain's pending urls. -/
theorem C4_counterexample :
    (lookupKV scenarioSmall.domain_state 0 = some ⟨0, DomainStatus.pending, 0⟩ ∧
      lookupKV scenarioSmall.urls (0, 0) =
        some [(1, ⟨1, UrlStatus.pending⟩), (2, ⟨0, UrlStatus.pending⟩),
          (3, ⟨0, UrlStatus.pending⟩)] ∧
      maxOrZero (pendingWeights [(1, (⟨1, UrlStatus.pending⟩ : UrlState)),
        (2, ⟨0, UrlStatus.pending⟩), (3, ⟨0, UrlStatus.pending⟩)]) = 1 ∧
      ¬ ((1 : ℤ) ≤ (0 : ℤ))) ∧
    (prepare_jobs (fun _ _ => (0 : ℤ)) (fun _ => 1)
        (⟨[(0, ⟨1, DomainStatus.pending, 1⟩)],
          [((0, 0), [(1, ⟨1, UrlStatus.pending⟩)]),
            ((0, 1), [(2, ⟨1, UrlStatus.pending⟩)])], []⟩ : CrawlDb ℕ ℕ) [0] 1 =
      some ([⟨0, false, [2]⟩],
        ⟨[(0, ⟨0, DomainStatus.pending, 1⟩)],
          [((0, 0), [(1, ⟨1, UrlStatus.pending⟩)]),
            ((0, 1), [(2, ⟨1, UrlStatus.crawling⟩)])], []⟩) ∧
      maxOrZero (pendingWeights ([(1, (⟨1, UrlStatus.pending⟩ : UrlState))] ++
        [(2, ⟨1, UrlStatus.crawling⟩)])) = 1 ∧
      ¬ ((0 : ℤ) = (1 : ℤ))) := by decide

/-- C4 (amended): `insert_urls` never decreases a stored domain weight (but
guarantees no lower bound against pending urls inserted earlier — the bound
can be broken beforehand by `insert_seed_urls`, as the counterexample
shows); and at the return of `prepare_jobs` each returned job `jb` was
produced by a `prepareJob` call (the loop body) at some index `i` on an
intermediate state `dbi` holding domain state `st0`, that call selected
shard `pick i % (st0.max_shard_id + 1)`, sampled `jb.urls` from that
shard's pending urls, wrote back the flipped shard `urls1` at that shard id
together with a domain state whose weight is the maximum pending url weight
of `urls1` (or 0 if it has none), and both writes persist to the final
state — the weight is recomputed from the selected, written-back shard
only, not over all of the domain's pending urls. -/
theorem C4_weight_amended {D U : Type _} [DecidableEq D] [DecidableEq U] :
    (∀ (domainOf : U → D) (db : CrawlDb D U) (responses : List (JobResponse D U))
        (d : D) (st0 : DomainState),
      lookupKV db.domain_state d = some st0 →
      ∃ st1, lookupKV (insert_urls domainOf db responses).1.domain_state d = some st1 ∧
        st0.weight ≤ st1.weight) ∧
    (∀ (pr : ℕ → ℕ → ℤ) (pick : ℕ → ℕ) (db : CrawlDb D U) (domains : List D) (k : ℕ)
        (jobs : List (Job D U)) (db1 : CrawlDb D U) (jb : Job D U),
      domains.Nodup →
      prepare_jobs pr pick db domains k = some (jobs, db1) →
      jb ∈ jobs →
      ∃ i dbi db2 st0 urls1 st1,
        lookupKV dbi.domain_state jb.domain = some st0 ∧
        prepareJob (pr i) (pick i) dbi jb.domain k = some (jb, db2) ∧
        jb.urls = weighted_sample (pr i)
          (pendingUrls ((lookupKV dbi.urls
            (jb.domain, pick i % (st0.max_shard_id + 1))).getD [])) k ∧
        flipCrawling ((lookupKV dbi.urls
            (jb.domain, pick i % (st0.max_shard_id + 1))).getD []) jb.urls = some urls1 ∧
        lookupKV db2.domain_state jb.domain = some st1 ∧
        lookupKV db2.urls (jb.domain, pick i % (st0.max_shard_id + 1)) = some urls1 ∧
        lookupKV db1.domain_state jb.domain = some st1 ∧
        lookupKV db1.urls (jb.domain, pick i % (st0.max_shard_id + 1)) = some urls1 ∧
        st1.weight = maxOrZero (pendingWeights urls1)) := by
  constructor
  · intro domainOf db responses d st0 hst
    unfold insert_urls
    obtain ⟨st1, hl, hw, _⟩ := insertGroupsFold_state_mono (groupDiscovered domainOf responses)
      ({ db with redirects := applyRedirects db.redirects responses }, []) d st0 hst
    exact ⟨st1, hl, hw⟩
  · intro pr pick db domains k jobs db1 jb hnd hrun hjb
    rcases prepareJobsGo_pick_facts pr pick k domains 0 db [] jobs db1 hnd hrun jb hjb with
      hin | hfacts
    · simp at hin
    exact hfacts
